import Mathlib

/-!
Verification of the `upp_AnimationEasing` animation scheduler
(`src/Animation/Animation.cpp`, authoritative variant starting at the
`Animation/` package banner, together with the header embedded at the end of
that file).

The development is a shallow embedding: C++ `double` values are modelled as
rationals (all arithmetic appearing in the source — polynomial evaluation,
halving, division by integer durations, clamping — is exact on rationals, and
the endpoint branches of the Bezier solver return the literals 0.0 / 1.0,
which are exact in IEEE arithmetic as well), `int`/`int64` are modelled as
`Int`, and user callbacks are modelled by their observable behaviour: presence
flags, a result function for the per-frame `tick`, and an exception outcome
for the per-frame callbacks invoked inside a scheduled `Step` (the scheduler
catches exceptions only at that boundary; the model's top-level control
operations assume callbacks that return normally).
-/

namespace Anim

/-- Upp-style clamp on rationals: `clamp(v, lo, hi) = min(max(v, lo), hi)`. -/
def qclamp (v lo hi : ℚ) : ℚ := min (max v lo) hi

/-- Upp-style clamp on integers, used by `Scheduler::SetFPSInternal`. -/
def iclamp (v lo hi : Int) : Int := min (max v lo) hi

theorem qclamp_le (v lo hi : ℚ) : qclamp v lo hi ≤ hi := min_le_right _ _

theorem le_qclamp (v lo hi : ℚ) (h : lo ≤ hi) : lo ≤ qclamp v lo hi :=
  le_min (le_max_right v lo) h

/-==================== Easing evaluator (Easing::detail) ====================-/

namespace Easing

/-- `Easing::detail::BX`: x-component of the unit cubic Bezier with
`P0=(0,0)`, `P3=(1,1)` and control abscissas `x1`, `x2`. -/
def BX (x1 x2 t : ℚ) : ℚ :=
  3 * (1 - t) * (1 - t) * t * x1 + 3 * (1 - t) * t * t * x2 + t * t * t

/-- `Easing::detail::BY`: y-component of the same curve. -/
def BY (y1 y2 t : ℚ) : ℚ :=
  3 * (1 - t) * (1 - t) * t * y1 + 3 * (1 - t) * t * t * y2 + t * t * t

/-- The bisection loop body of `Easing::detail::Solve`: starting from the
bracket `[lo, hi]` and current parameter `t`, run `n` iterations of
`(cx < x ? lo : hi) = t; t = 0.5*(lo+hi);` and return the final `t`. -/
def bisect (x1 x2 x : ℚ) (lo hi t : ℚ) : Nat → ℚ
  | 0 => t
  | n + 1 =>
      let cx := BX x1 x2 t
      if cx < x then bisect x1 x2 x t hi (0.5 * (t + hi)) n
      else bisect x1 x2 x lo t (0.5 * (lo + t)) n

/-- `Easing::detail::Solve(x1,y1,x2,y2,x)`: clamped endpoints, then 8
bisection iterations on the Bezier parameter, then evaluate the y-component. -/
def Solve (x1 y1 x2 y2 x : ℚ) : ℚ :=
  if x ≤ 0 then 0
  else if 1 ≤ x then 1
  else BY y1 y2 (bisect x1 x2 x 0 1 x 8)

/-- The `InOutCubic` preset, the default easing of `Animation::Spec`. -/
def InOutCubic : ℚ → ℚ := fun t => Solve (645/1000) (45/1000) (355/1000) 1 t

end Easing

/-==================== Scheduler frame pacing (FPS) ====================-/

/-- The frame-pacing fields of `Scheduler` (`fps`, `step_ms`). -/
structure SchedPacing where
  fps : Int
  step_ms : Int

/-- `Scheduler::SetFPSInternal`: clamp the requested FPS to `[1, 240]` and
recompute the frame step (timer re-arming has no effect on these fields). -/
def SetFPSInternal (f : Int) (s : SchedPacing) : SchedPacing :=
  let fps := iclamp f 1 240
  { s with fps := fps, step_ms := max 1 (1000 / fps) }

/-- `Scheduler::GetFPSInternal`. -/
def GetFPSInternal (s : SchedPacing) : Int := s.fps

/-- C7: for any integer argument `f`, after `SetFPS(f)` the value read back by
`GetFPS()` lies in `[1, 240]` (in particular `SetFPS 0` yields at least 1 and
`SetFPS 10000` yields at most 240). -/
theorem C7_fps_clamp (f : Int) (s : SchedPacing) :
    1 ≤ GetFPSInternal (SetFPSInternal f s) ∧
    GetFPSInternal (SetFPSInternal f s) ≤ 240 := by
  constructor
  · exact le_min (le_max_right f 1) (by norm_num)
  · exact min_le_right _ _

/-- C9: `Solve` returns exactly 0 for every `x ≤ 0` and exactly 1 for every
`x ≥ 1`, and for interior `x` it is exactly the y-component evaluated at the
parameter produced by 8 bisection iterations started from bracket `[0,1]` and
seed `x`. (Determinism and purity hold by construction: `Solve` is a total
function of its five arguments.) -/
theorem C9_solve_endpoints_and_interior (x1 y1 x2 y2 x : ℚ) :
    (x ≤ 0 → Easing.Solve x1 y1 x2 y2 x = 0) ∧
    (1 ≤ x → Easing.Solve x1 y1 x2 y2 x = 1) ∧
    (0 < x → x < 1 →
      Easing.Solve x1 y1 x2 y2 x = Easing.BY y1 y2 (Easing.bisect x1 x2 x 0 1 x 8)) := by
  refine ⟨fun h => ?_, fun h => ?_, fun h0 h1 => ?_⟩
  · simp [Easing.Solve, h]
  · have h0 : ¬ x ≤ 0 := by linarith
    simp [Easing.Solve, h0, h]
  · simp [Easing.Solve, not_le.mpr h0, not_le.mpr h1]

/-- Witness for C9 at concrete inputs: endpoints at `-1` and `2`, and the
interior point `1/2` on the `InQuad` control tuple. -/
theorem C9_witness :
    Easing.Solve (55/100) (85/1000) (68/100) (53/100) (-1) = 0 ∧
    Easing.Solve (55/100) (85/1000) (68/100) (53/100) 2 = 1 ∧
    Easing.Solve (55/100) (85/1000) (68/100) (53/100) (1/2) =
      Easing.BY (85/1000) (53/100) (Easing.bisect (55/100) (68/100) (1/2) 0 1 (1/2) 8) :=
  ⟨(C9_solve_endpoints_and_interior (55/100) (85/1000) (68/100) (53/100) (-1)).1 (by norm_num),
   (C9_solve_endpoints_and_interior (55/100) (85/1000) (68/100) (53/100) 2).2.1 (by norm_num),
   (C9_solve_endpoints_and_interior (55/100) (85/1000) (68/100) (53/100) (1/2)).2.2
     (by norm_num) (by norm_num)⟩

/-==================== Data model ====================-/

/-- Result of a void user callback invoked inside a scheduled step
(`on_update`): it either returns normally or throws. -/
inductive CbRes where
  | ok
  | exn
deriving DecidableEq

/-- Result of the per-frame `tick` callback: continue (`true`), request a stop
(`false`), or throw. -/
inductive TickRes where
  | cont
  | stop
  | exn
deriving DecidableEq

/-- Outcome of `Animation::State::Step`: `cont`/`stop` mirror the returned
bool, `exn` models an exception escaping a user callback. -/
inductive StepOut where
  | cont
  | stop
  | exn
deriving DecidableEq

/-- Observable callback invocations of one run, in order. -/
inductive Ev where
  | start
  | update (e : ℚ)
  | tick (e : ℚ)
  | finish
  | cancel
deriving DecidableEq

/-- `Animation::Spec`: configuration of one run. Callback values are modelled
by presence plus observable behaviour (`tick`/`on_update` may throw; the model
invokes the other hooks only through the scheduler, where they return
normally). -/
structure Spec where
  duration_ms : Int
  loop_count : Int
  delay_ms : Int
  yoyo : Bool
  easing : Option (ℚ → ℚ)
  tick : Option (ℚ → TickRes)
  on_update : Option (ℚ → CbRes)
  on_start : Bool
  on_finish : Bool
  on_cancel : Bool

/-- The default `Animation::Spec` (header defaults; the default easing is the
`InOutCubic` preset). -/
def defaultSpec : Spec :=
  { duration_ms := 400, loop_count := 1, delay_ms := 0, yoyo := false,
    easing := some Easing.InOutCubic, tick := none, on_update := none,
    on_start := false, on_finish := false, on_cancel := false }

/-- `Animation::State`: the scheduler-owned runtime record of one run. The
`Ptr<Ctrl> owner` watcher is an `Option Nat` owner id (`none` = owner died);
`anim` is the back-pointer to the controlling handle (by id). -/
structure State where
  owner : Option Nat
  spec : Spec
  start_ms : Int
  elapsed_ms : Int
  paused : Bool
  reverse : Bool
  cycles : Int
  anim : Option Nat
  dying : Bool

/-- The `Animation` handle: owner pointer, staged spec, weak reference to the
live state (by id, nulled whenever the state is deleted, mirroring
`Ptr<State>`), the progress cache, and the cached last committed spec
(`last_spec_box_` / `have_last_spec_`). -/
structure Handle where
  owner : Nat
  staging : Option Spec
  live : Option Nat
  progress_cache : ℚ
  last_spec : Option Spec

/-- The whole system: the handles existing in the program, the scheduler's
`active` vector (in insertion order), the log of callback invocations tagged
by state id, and a fresh-id counter. -/
structure World where
  handles : List (Nat × Handle)
  active : List (Nat × State)
  events : List (Nat × Ev)
  next : Nat

/-- Association-list lookup by id. -/
def lookup (l : List (Nat × α)) (k : Nat) : Option α :=
  (l.find? (fun p => p.1 == k)).map Prod.snd

/-- Association-list pointwise update at one id. -/
def updatek (l : List (Nat × α)) (k : Nat) (f : α → α) : List (Nat × α) :=
  l.map fun p => if p.1 = k then (p.1, f p.2) else p

/-==================== Animation::State::Step ====================-/

/-- The `if (leg_progress >= 1.0)` tail of `Step`: loop/yoyo bookkeeping.
With yoyo the direction flips first and a cycle is counted down only when
flipping back to forward; `--cycles` happens only when `loop_count >= 0`. -/
def legEnd (now : Int) (leg : ℚ) (evs : List Ev) (s : State) : State × StepOut × List Ev :=
  if 1 ≤ leg then
    if s.spec.yoyo then
      let rev := !s.reverse
      if rev = false then
        if 0 ≤ s.spec.loop_count then
          if s.cycles - 1 ≤ 0 then
            ({ s with reverse := rev, cycles := s.cycles - 1 }, StepOut.stop,
              evs ++ if s.spec.on_finish then [Ev.finish] else [])
          else
            ({ s with reverse := rev, cycles := s.cycles - 1, start_ms := now, elapsed_ms := 0 },
              StepOut.cont, evs)
        else
          ({ s with reverse := rev, start_ms := now, elapsed_ms := 0 }, StepOut.cont, evs)
      else
        ({ s with reverse := rev, start_ms := now, elapsed_ms := 0 }, StepOut.cont, evs)
    else
      if 0 ≤ s.spec.loop_count then
        if s.cycles - 1 ≤ 0 then
          ({ s with cycles := s.cycles - 1 }, StepOut.stop,
            evs ++ if s.spec.on_finish then [Ev.finish] else [])
        else
          ({ s with cycles := s.cycles - 1, start_ms := now, elapsed_ms := 0 },
            StepOut.cont, evs)
      else
        ({ s with start_ms := now, elapsed_ms := 0 }, StepOut.cont, evs)
  else (s, StepOut.cont, evs)

/-- The `tick` invocation point of `Step` (after `on_update`): if a tick is
set it fires with the eased value; `false` stops the run, a throw escapes to
the scheduler's catch. -/
def stepTick (now : Int) (leg e : ℚ) (evs : List Ev) (s : State) : State × StepOut × List Ev :=
  match s.spec.tick with
  | some f =>
      let evs := evs ++ [Ev.tick e]
      match f e with
      | TickRes.exn => (s, StepOut.exn, evs)
      | TickRes.stop => (s, StepOut.stop, evs)
      | TickRes.cont => legEnd now leg evs s
  | none => legEnd now leg evs s

/-- `Animation::State::Step(now)`: owner/pause/delay gating, leg progress,
direction adjustment, easing, callbacks, then loop/yoyo bookkeeping. -/
def Step (now : Int) (s : State) : State × StepOut × List Ev :=
  if s.owner = none then (s, StepOut.stop, [])
  else if s.paused then (s, StepOut.cont, [])
  else
    let lcl := now - s.start_ms + s.elapsed_ms
    if lcl < s.spec.delay_ms then (s, StepOut.cont, [])
    else
      let dur := max 1 s.spec.duration_ms
      let leg := qclamp (((lcl - s.spec.delay_ms : Int) : ℚ) / ((dur : Int) : ℚ)) 0 1
      let t := if s.reverse then 1 - leg else leg
      let e := match s.spec.easing with
               | some f => f t
               | none => t
      match s.spec.on_update with
      | some g =>
          match g e with
          | CbRes.exn => (s, StepOut.exn, [Ev.update e])
          | CbRes.ok => stepTick now leg e [Ev.update e] s
      | none => stepTick now leg e [] s

/-==================== Scheduler → Animation hooks ====================-/

/-- `Animation::_OnStateRemovedFinish`: cache `1.0`, clear `live_`. -/
def handleFinishCache (h : Handle) : Handle :=
  { h with progress_cache := 1, live := none }

/-- `Animation::_OnStateRemovedCancel(p)`: cache `clamp(p, 0, 1)`, clear
`live_`. -/
def handleCancelCache (p : ℚ) (h : Handle) : Handle :=
  { h with progress_cache := qclamp p 0 1, live := none }

/-- The live branch of `Animation::Progress()` computed from a state. -/
def progressLive (now : Int) (s : State) : ℚ :=
  let r1 := s.elapsed_ms + (if s.paused then 0 else now - s.start_ms)
  let r2 := max 0 (r1 - s.spec.delay_ms)
  qclamp ((r2 : ℚ) / ((max 1 s.spec.duration_ms : Int) : ℚ)) 0 1

/-- `Animation::Progress()` for a given handle against an active set: the
live formula while the weak state reference resolves, the cache otherwise. -/
def handleProgress (active : List (Nat × State)) (now : Int) (h : Handle) : ℚ :=
  match h.live with
  | none => h.progress_cache
  | some r =>
      match lookup active r with
      | none => h.progress_cache
      | some s => progressLive now s

/-- `Animation::Progress()` of the handle `hid` in world `w` at time `now`. -/
def progressOf (w : World) (hid : Nat) (now : Int) : Option ℚ :=
  (lookup w.handles hid).map (handleProgress w.active now)

/-- Deletion of state `r` nulls every `Ptr<State>` that referenced it. -/
def ptrNull (hs : List (Nat × Handle)) (rem : List Nat) : List (Nat × Handle) :=
  hs.map fun p =>
    match p.2.live with
    | some r => if rem.contains r then (p.1, { p.2 with live := none }) else p
    | none => p

/-- `Scheduler::Remove` outside a sweep: erase and delete the state
immediately (the deletion nulling weak references to it). -/
def removeState (r : Nat) (w : World) : World :=
  { w with active := w.active.filter (fun p => p.1 ≠ r),
           handles := ptrNull w.handles [r] }

/-==================== Scheduler::RunFrame ====================-/

/-- Result of the iteration phase of `RunFrame`: updated states (all of them,
still in order), updated handles, events fired, and ids marked for removal. -/
structure FrameRes where
  states : List (Nat × State)
  handles : List (Nat × Handle)
  events : List (Nat × Ev)
  removed : List Nat

/-- The `if (!cont)` branch of `RunFrame`: if the state still has a handle
back-pointer, report cancellation at forward progress 0 when the owner died,
otherwise natural completion, then sever the back-pointer. -/
def removedDetach (hs : List (Nat × Handle)) (s : State) : List (Nat × Handle) × State :=
  match s.anim with
  | none => (hs, s)
  | some hid =>
      (updatek hs hid (fun h =>
          if s.owner = none then handleCancelCache 0 h else handleFinishCache h),
        { s with anim := none })

/-- The iteration of `RunFrame`: step every non-dying state inside the
try/catch (an exception becomes `cont = false`), detach states that stopped,
and collect their ids; removal itself is deferred past the iteration. -/
def frameLoop (now : Int) (l : List (Nat × State)) (hs : List (Nat × Handle)) : FrameRes :=
  match l with
  | [] => ⟨[], hs, [], []⟩
  | (i, s) :: rest =>
      let r := if s.dying then (s, StepOut.stop, ([] : List Ev)) else Step now s
      if r.2.1 = StepOut.cont then
        let res := frameLoop now rest hs
        ⟨(i, r.1) :: res.states, res.handles, r.2.2.map (fun e => (i, e)) ++ res.events,
          res.removed⟩
      else
        let d := removedDetach hs r.1
        let res := frameLoop now rest d.1
        ⟨(i, d.2) :: res.states, res.handles, r.2.2.map (fun e => (i, e)) ++ res.events,
          i :: res.removed⟩

/-- `Scheduler::RunFrame(now)`: iterate, then delete the collected states
after the iteration (deletion nulling weak references to them). -/
def runFrame (now : Int) (w : World) : World :=
  let r := frameLoop now w.active w.handles
  { handles := ptrNull r.handles r.removed,
    active := r.states.filter (fun p => !r.removed.contains p.1),
    events := w.events ++ r.events,
    next := w.next }

/-==================== Animation control surface ====================-/

/-- `INT_MAX`, the cycle count used for unbounded loops. -/
def intMax : Int := 2147483647

/-- `Animation::Play()`: commit the staging (falling back to the cached last
committed spec), build a fresh `State` with `cycles` derived from
`loop_count`/`yoyo`, reset the progress cache, fire `on_start`, and register
with the scheduler. A previous live run is neither cancelled nor detached. -/
def play (hid : Nat) (now : Int) (w : World) : World :=
  match lookup w.handles hid with
  | none => w
  | some h =>
      match (match h.staging with
             | some sp => some sp
             | none => h.last_spec) with
      | none => w
      | some sp =>
          let sid := w.next
          let cyc := if sp.loop_count < 0 then intMax
                     else if sp.yoyo then (sp.loop_count + 1) / 2
                     else sp.loop_count
          let st : State :=
            { owner := some h.owner, spec := sp, start_ms := now, elapsed_ms := 0,
              paused := false, reverse := false, cycles := cyc, anim := some hid,
              dying := false }
          { handles := updatek w.handles hid (fun h0 =>
              { h0 with staging := none, last_spec := some sp, live := some sid,
                        progress_cache := 0 }),
            active := w.active ++ [(sid, st)],
            events := w.events ++ (if sp.on_start then [(sid, Ev.start)] else []),
            next := w.next + 1 }

/-- `Animation::_Unschedule(fire_cancel)`: optionally fire `on_cancel`, take a
forward-progress snapshot while still live, detach both sides, remove the
state from the scheduler, and cache the snapshot. No-op when not live. -/
def unschedule (fire_cancel : Bool) (hid : Nat) (now : Int) (w : World) : World :=
  match lookup w.handles hid with
  | none => w
  | some h =>
      match h.live with
      | none => w
      | some r =>
          match lookup w.active r with
          | none => w
          | some s =>
              let evs := if fire_cancel && s.spec.on_cancel then [(r, Ev.cancel)] else []
              let p := progressLive now s
              removeState r
                { w with handles := updatek w.handles hid (handleCancelCache p),
                         events := w.events ++ evs }

/-- `Animation::Stop()`: deliver the final `tick` at the boundary value and
`on_finish`, cache progress 1.0, detach, and remove the state. No-op when not
live. -/
def stopOp (hid : Nat) (w : World) : World :=
  match lookup w.handles hid with
  | none => w
  | some h =>
      match h.live with
      | none => w
      | some r =>
          match lookup w.active r with
          | none => w
          | some s =>
              let evs :=
                (if s.spec.tick.isSome then
                    [(r, Ev.tick (if s.reverse then 0 else 1))]
                  else []) ++
                (if s.spec.on_finish then [(r, Ev.finish)] else [])
              removeState r
                { w with handles := updatek w.handles hid handleFinishCache,
                         events := w.events ++ evs }

/-- `Animation::Cancel()`: `_Unschedule(true)`. -/
def cancelOp (hid : Nat) (now : Int) (w : World) : World :=
  unschedule true hid now w

/-- `Animation::Reset()`: silent unschedule, re-prime staging
(`EnsureStaging_` keeps an existing staging), zero the progress cache. -/
def resetOp (hid : Nat) (now : Int) (w : World) : World :=
  let w1 := unschedule false hid now w
  { w1 with handles := updatek w1.handles hid (fun h =>
      { h with staging := some (h.staging.getD defaultSpec), progress_cache := 0 }) }

/-- `Animation::Replay()`: prefer fresh staging; otherwise rehydrate staging
from the cached last committed spec; silently interrupt a live run; no-op if
there has never been a committed run. -/
def replayOp (hid : Nat) (now : Int) (w : World) : World :=
  match lookup w.handles hid with
  | none => w
  | some h =>
      if h.staging.isSome then
        play hid now (unschedule false hid now w)
      else
        match h.last_spec with
        | none => w
        | some sp =>
            let w1 := unschedule false hid now w
            play hid now
              { w1 with handles := updatek w1.handles hid (fun h0 =>
                  { h0 with staging := some sp }) }

/-- `Animation::Pause()`: when live and not paused, fold the elapsed wall time
into `elapsed_ms` and set the paused flag (the scheduler may stop its timer,
which has no observable state here). -/
def pauseOp (hid : Nat) (now : Int) (w : World) : World :=
  match lookup w.handles hid with
  | none => w
  | some h =>
      match h.live with
      | none => w
      | some r =>
          match lookup w.active r with
          | none => w
          | some s =>
              if s.paused then w
              else
                { w with active := updatek w.active r (fun s0 =>
                    { s0 with elapsed_ms := s0.elapsed_ms + (now - s0.start_ms),
                              paused := true }) }

/-- `Animation::Resume()`: when live and paused, reset the leg start time and
clear the paused flag. -/
def resumeOp (hid : Nat) (now : Int) (w : World) : World :=
  match lookup w.handles hid with
  | none => w
  | some h =>
      match h.live with
      | none => w
      | some r =>
          match lookup w.active r with
          | none => w
          | some s =>
              if s.paused then
                { w with active := updatek w.active r (fun s0 =>
                    { s0 with start_ms := now, paused := false }) }
              else w

/-- The handle-side effect of `Scheduler::KillFor` on one state: if the state
matches (owner dead or equal to the killed `Ctrl`) and is attached, report
cancellation at forced progress 0 to its handle. -/
def killStep (c : Nat) (hs : List (Nat × Handle)) (p : Nat × State) : List (Nat × Handle) :=
  if p.2.owner = none ∨ p.2.owner = some c then
    match p.2.anim with
    | some hid => updatek hs hid (handleCancelCache 0)
    | none => hs
  else hs

/-- `Scheduler::KillFor(c)` (`Animation::KillAllFor`): for every state whose
owner died or matches `c`, detach its handle at forced progress 0 (without
firing any callback) and mark the state dying; deletion is deferred to the
next sweep. The C++ loop walks the active vector backwards. -/
def killFor (c : Nat) (w : World) : World :=
  { w with handles := w.active.reverse.foldl (killStep c) w.handles,
           active := w.active.map fun p =>
             if p.2.owner = none ∨ p.2.owner = some c then
               (p.1, { p.2 with anim := none, dying := true })
             else p }

/-- `Scheduler::Finalize()` (`Animation::Finalize`): phase 1 snapshots each
attached handle's forward progress into its cache and severs the links;
phase 2 deletes every state (nulling remaining weak references). -/
def finalizeOp (now : Int) (w : World) : World :=
  let hs := w.active.foldl
    (fun hs p =>
      match p.2.anim with
      | some hid => updatek hs hid (fun h => handleCancelCache (handleProgress w.active now h) h)
      | none => hs)
    w.handles
  { w with handles := ptrNull hs (w.active.map Prod.fst), active := [] }

/-- Construction of an `Animation` handle bound to owner `o`: fresh empty
staging, no live run, zero progress cache. -/
def newHandle (o : Nat) (w : World) : World :=
  { w with handles := w.handles ++
      [(w.next, { owner := o, staging := some defaultSpec, live := none,
                  progress_cache := 0, last_spec := none })],
           next := w.next + 1 }

/-- A chain of fluent setters assigning every staged field: `EnsureStaging_`
followed by writing the whole staged spec. -/
def stage (hid : Nat) (sp : Spec) (w : World) : World :=
  { w with handles := updatek w.handles hid (fun h => { h with staging := some sp }) }

/-- Destruction of the owner `Ctrl`: every watching `Ptr<Ctrl>` in the
scheduler's states becomes empty. -/
def ownerDies (o : Nat) (w : World) : World :=
  { w with active := w.active.map fun p =>
      if p.2.owner = some o then (p.1, { p.2 with owner := none }) else p }

/-==================== Operation traces ====================-/

/-- The top-level operations of the public API, as invoked by a host
application between frames. -/
inductive Op where
  | newHandle (owner : Nat)
  | stage (hid : Nat) (sp : Spec)
  | play (hid : Nat) (now : Int)
  | runFrame (now : Int)
  | stop (hid : Nat)
  | cancel (hid : Nat) (now : Int)
  | reset (hid : Nat) (now : Int)
  | replay (hid : Nat) (now : Int)
  | pause (hid : Nat) (now : Int)
  | resume (hid : Nat) (now : Int)
  | killAllFor (owner : Nat)
  | finalize (now : Int)
  | ownerDies (owner : Nat)

/-- Interpretation of one operation. -/
def applyOp (w : World) : Op → World
  | Op.newHandle o => newHandle o w
  | Op.stage hid sp => stage hid sp w
  | Op.play hid now => play hid now w
  | Op.runFrame now => runFrame now w
  | Op.stop hid => stopOp hid w
  | Op.cancel hid now => cancelOp hid now w
  | Op.reset hid now => resetOp hid now w
  | Op.replay hid now => replayOp hid now w
  | Op.pause hid now => pauseOp hid now w
  | Op.resume hid now => resumeOp hid now w
  | Op.killAllFor o => killFor o w
  | Op.finalize now => finalizeOp now w
  | Op.ownerDies o => ownerDies o w

/-- The empty initial world. -/
def World.init : World := ⟨[], [], [], 0⟩

/-- Interpretation of a whole operation sequence. -/
def runOps (ops : List Op) : World := ops.foldl applyOp World.init

/-==================== Event counting ====================-/

/-- Number of `on_finish` invocations for run `r` in an event log. -/
def finishCountE (r : Nat) (evs : List (Nat × Ev)) : Nat :=
  (evs.filter fun p => p.1 == r && p.2 == Ev.finish).length

/-- Number of `on_cancel` invocations for run `r` in an event log. -/
def cancelCountE (r : Nat) (evs : List (Nat × Ev)) : Nat :=
  (evs.filter fun p => p.1 == r && p.2 == Ev.cancel).length

/-- Number of `on_finish` invocations logged for run `r`. -/
def finishCount (r : Nat) (w : World) : Nat := finishCountE r w.events

/-- Number of `on_cancel` invocations logged for run `r`. -/
def cancelCount (r : Nat) (w : World) : Nat := cancelCountE r w.events

/-- The eased values delivered to the per-frame `tick` of run `r`, in order. -/
def tickValues (r : Nat) (w : World) : List ℚ :=
  w.events.filterMap fun p =>
    match p with
    | (i, Ev.tick e) => if i = r then some e else none
    | _ => none

/-==================== Association-list lemmas ====================-/

theorem lookup_nil (k : Nat) : lookup ([] : List (Nat × α)) k = none := rfl

theorem lookup_cons (p : Nat × α) (l : List (Nat × α)) (k : Nat) :
    lookup (p :: l) k = if p.1 = k then some p.2 else lookup l k := by
  by_cases h : p.1 = k
  · have hb : (p.1 == k) = true := by simp [h]
    simp [lookup, List.find?, hb, h]
  · have hb : (p.1 == k) = false := by simp [h]
    simp [lookup, List.find?, hb, h]

theorem updatek_nil (k : Nat) (f : α → α) : updatek ([] : List (Nat × α)) k f = [] := rfl

theorem updatek_cons (p : Nat × α) (l : List (Nat × α)) (k : Nat) (f : α → α) :
    updatek (p :: l) k f =
      (if p.1 = k then (p.1, f p.2) else p) :: updatek l k f := by
  by_cases h : p.1 = k
  · simp [updatek, h]
  · simp [updatek, h]

theorem updatek_ids (l : List (Nat × α)) (k : Nat) (f : α → α) :
    (updatek l k f).map Prod.fst = l.map Prod.fst := by
  induction l with
  | nil => rfl
  | cons p t ih =>
      rw [updatek_cons]
      by_cases h : p.1 = k <;> simp [h, ih]

theorem lookup_updatek_self (l : List (Nat × α)) (k : Nat) (f : α → α) :
    lookup (updatek l k f) k = (lookup l k).map f := by
  induction l with
  | nil => rfl
  | cons p t ih =>
      rw [updatek_cons, lookup_cons, lookup_cons]
      by_cases h : p.1 = k <;> simp [h, ih]

theorem lookup_updatek_ne (l : List (Nat × α)) (k j : Nat) (f : α → α) (h : j ≠ k) :
    lookup (updatek l k f) j = lookup l j := by
  induction l with
  | nil => rfl
  | cons p t ih =>
      rw [updatek_cons, lookup_cons, lookup_cons]
      by_cases hp : p.1 = k
      · have hj : ¬ (p.1 = j) := fun hj => h (by rw [← hj, hp])
        have hkj : ¬ (k = j) := fun hkj => h hkj.symm
        simp [hp, hj, hkj, ih]
      · by_cases hj : p.1 = j
        · have hkj : ¬ (j = k) := h
          simp [hp, hj, hkj]
        · simp [hp, hj, ih]

theorem mem_updatek (l : List (Nat × α)) (k : Nat) (f : α → α) (p : Nat × α)
    (hp : p ∈ updatek l k f) :
    ∃ q ∈ l, p.1 = q.1 ∧ (p.2 = q.2 ∨ p.2 = f q.2) := by
  induction l with
  | nil => cases hp
  | cons q t ih =>
      rw [updatek_cons] at hp
      rcases List.mem_cons.mp hp with hp | hp
      · by_cases h : q.1 = k
        · rw [if_pos h] at hp
          exact ⟨q, List.mem_cons_self q t, by rw [hp], Or.inr (by rw [hp])⟩
        · rw [if_neg h] at hp
          exact ⟨q, List.mem_cons_self q t, by rw [hp], Or.inl (by rw [hp])⟩
      · rcases ih hp with ⟨q2, hq2, h1, h2⟩
        exact ⟨q2, List.mem_cons_of_mem _ hq2, h1, h2⟩

theorem lookup_mem (l : List (Nat × α)) (k : Nat) (v : α) (h : lookup l k = some v) :
    (k, v) ∈ l := by
  induction l with
  | nil => cases h
  | cons p t ih =>
      rw [lookup_cons] at h
      by_cases hp : p.1 = k
      · rw [if_pos hp] at h
        have hv : p.2 = v := Option.some.inj h
        have : p = (k, v) := by
          cases p
          simp only at hp hv
          rw [hp, hv]
        rw [← this]
        exact List.mem_cons_self p t
      · rw [if_neg hp] at h
        exact List.mem_cons_of_mem _ (ih h)

theorem lookup_eq_none_of_not_mem (l : List (Nat × α)) (k : Nat)
    (h : k ∉ l.map Prod.fst) : lookup l k = none := by
  induction l with
  | nil => rfl
  | cons p t ih =>
      rw [lookup_cons]
      simp only [List.map_cons, List.mem_cons] at h
      push_neg at h
      have : ¬ (p.1 = k) := fun hk => h.1 hk.symm
      simp [this, ih h.2]

theorem lookup_isSome_of_mem (l : List (Nat × α)) (k : Nat)
    (h : k ∈ l.map Prod.fst) : (lookup l k).isSome := by
  induction l with
  | nil => simp at h
  | cons p t ih =>
      rw [lookup_cons]
      simp only [List.map_cons, List.mem_cons] at h
      by_cases hp : p.1 = k
      · simp [hp]
      · rcases h with h | h
        · exact absurd h.symm hp
        · simp [hp, ih h]

/-==================== RunFrame analysis ====================-/

/-- The per-state result computed inside the `RunFrame` iteration: dying
states are skipped with `cont = false`, others are stepped. -/
def stepRes (now : Int) (s : State) : State × StepOut × List Ev :=
  if s.dying then (s, StepOut.stop, []) else Step now s

/-- A state after `s->anim = nullptr`. -/
def detachedOf (s : State) : State :=
  match s.anim with
  | none => s
  | some _ => { s with anim := none }

theorem removedDetach_snd (hs : List (Nat × Handle)) (s : State) :
    (removedDetach hs s).2 = detachedOf s := by
  cases h : s.anim <;> simp [removedDetach, detachedOf, h]

/-- The state stored back for id `i` after one `RunFrame` iteration. -/
def stepStateOf (now : Int) (s : State) : State :=
  if (stepRes now s).2.1 = StepOut.cont then (stepRes now s).1
  else detachedOf (stepRes now s).1

theorem frameLoop_nil (now : Int) (hs : List (Nat × Handle)) :
    frameLoop now [] hs = ⟨[], hs, [], []⟩ := rfl

theorem frameLoop_cons_cont (now : Int) (i : Nat) (s : State) (rest : List (Nat × State))
    (hs : List (Nat × Handle)) (h : (stepRes now s).2.1 = StepOut.cont) :
    frameLoop now ((i, s) :: rest) hs =
      ⟨(i, (stepRes now s).1) :: (frameLoop now rest hs).states,
        (frameLoop now rest hs).handles,
        (stepRes now s).2.2.map (fun e => (i, e)) ++ (frameLoop now rest hs).events,
        (frameLoop now rest hs).removed⟩ := by
  show (let r := stepRes now s
        if r.2.1 = StepOut.cont then _ else _) = _
  simp only [h, if_pos]
  simp only [stepRes]

theorem frameLoop_cons_stop (now : Int) (i : Nat) (s : State) (rest : List (Nat × State))
    (hs : List (Nat × Handle)) (h : ¬ (stepRes now s).2.1 = StepOut.cont) :
    frameLoop now ((i, s) :: rest) hs =
      ⟨(i, (removedDetach hs (stepRes now s).1).2) ::
          (frameLoop now rest (removedDetach hs (stepRes now s).1).1).states,
        (frameLoop now rest (removedDetach hs (stepRes now s).1).1).handles,
        (stepRes now s).2.2.map (fun e => (i, e)) ++
          (frameLoop now rest (removedDetach hs (stepRes now s).1).1).events,
        i :: (frameLoop now rest (removedDetach hs (stepRes now s).1).1).removed⟩ := by
  show (let r := stepRes now s
        if r.2.1 = StepOut.cont then _ else _) = _
  simp only [h, if_neg, if_false]
  simp only [stepRes]

/-- Closed form: the states component of the iteration does not depend on the
handles and records each state's own step result (detached when stopping). -/
theorem frameLoop_states (now : Int) (l : List (Nat × State)) (hs : List (Nat × Handle)) :
    (frameLoop now l hs).states = l.map (fun p => (p.1, stepStateOf now p.2)) := by
  induction l generalizing hs with
  | nil => rfl
  | cons p rest ih =>
      by_cases h : (stepRes now p.2).2.1 = StepOut.cont
      · rw [show p = (p.1, p.2) from rfl, frameLoop_cons_cont now p.1 p.2 rest hs h]
        simp [stepStateOf, h, ih]
      · rw [show p = (p.1, p.2) from rfl, frameLoop_cons_stop now p.1 p.2 rest hs h]
        simp [stepStateOf, h, ih, removedDetach_snd]

/-- Closed form: the removal list collects exactly the ids whose own step did
not continue. -/
theorem frameLoop_removed (now : Int) (l : List (Nat × State)) (hs : List (Nat × Handle)) :
    (frameLoop now l hs).removed =
      (l.filter (fun p => !((stepRes now p.2).2.1 == StepOut.cont))).map Prod.fst := by
  induction l generalizing hs with
  | nil => rfl
  | cons p rest ih =>
      by_cases h : (stepRes now p.2).2.1 = StepOut.cont
      · rw [show p = (p.1, p.2) from rfl, frameLoop_cons_cont now p.1 p.2 rest hs h]
        simp [h, ih]
      · rw [show p = (p.1, p.2) from rfl, frameLoop_cons_stop now p.1 p.2 rest hs h]
        simp [h, ih]

/-- Closed form: the events of a frame are each state's own step events,
tagged with its id, in iteration order. -/
theorem frameLoop_events (now : Int) (l : List (Nat × State)) (hs : List (Nat × Handle)) :
    (frameLoop now l hs).events =
      l.flatMap (fun p => (stepRes now p.2).2.2.map (fun e => (p.1, e))) := by
  induction l generalizing hs with
  | nil => rfl
  | cons p rest ih =>
      by_cases h : (stepRes now p.2).2.1 = StepOut.cont
      · rw [show p = (p.1, p.2) from rfl, frameLoop_cons_cont now p.1 p.2 rest hs h]
        simp [h, ih, List.flatMap]
      · rw [show p = (p.1, p.2) from rfl, frameLoop_cons_stop now p.1 p.2 rest hs h]
        simp [h, ih, List.flatMap]

/-- Pointwise preservation through `updatek`. -/
theorem updatek_pres (P : α → Prop) (l : List (Nat × α)) (k : Nat) (f : α → α)
    (hf : ∀ a, P a → P (f a)) (hl : ∀ p ∈ l, P p.2) :
    ∀ p ∈ updatek l k f, P p.2 := by
  intro p hp
  rcases mem_updatek l k f p hp with ⟨q, hq, _, hv⟩
  rcases hv with hv | hv
  · rw [hv]; exact hl q hq
  · rw [hv]; exact hf _ (hl q hq)

/-- Pointwise preservation through the detach performed for a removed
state. -/
theorem removedDetach_pres (P : Handle → Prop) (hs : List (Nat × Handle)) (s : State)
    (hc : ∀ h, P h → P (handleCancelCache 0 h))
    (hf : ∀ h, P h → P (handleFinishCache h))
    (hl : ∀ p ∈ hs, P p.2) :
    ∀ p ∈ (removedDetach hs s).1, P p.2 := by
  cases ha : s.anim with
  | none => simpa [removedDetach, ha] using hl
  | some hid =>
      simp only [removedDetach, ha]
      by_cases ho : s.owner = none
      · simp only [ho, if_pos]
        exact updatek_pres P hs hid _ (fun a pa => hc a pa) hl
      · simp only [ho, if_neg, if_false]
        exact updatek_pres P hs hid _ (fun a pa => hf a pa) hl

/-- Pointwise preservation of handle properties across a whole frame
iteration, for properties closed under the two scheduler-side cache
writes. -/
theorem frameLoop_handles_pres (P : Handle → Prop) (now : Int)
    (hc : ∀ h, P h → P (handleCancelCache 0 h))
    (hf : ∀ h, P h → P (handleFinishCache h)) :
    ∀ (l : List (Nat × State)) (hs : List (Nat × Handle)),
      (∀ p ∈ hs, P p.2) → ∀ p ∈ (frameLoop now l hs).handles, P p.2 := by
  intro l
  induction l with
  | nil => intro hs hl; simpa [frameLoop_nil] using hl
  | cons p rest ih =>
      intro hs hl
      by_cases h : (stepRes now p.2).2.1 = StepOut.cont
      · rw [show p = (p.1, p.2) from rfl, frameLoop_cons_cont now p.1 p.2 rest hs h]
        exact ih hs hl
      · rw [show p = (p.1, p.2) from rfl, frameLoop_cons_stop now p.1 p.2 rest hs h]
        exact ih _ (removedDetach_pres P hs _ hc hf hl)

/-- Ids are preserved by the iteration phase. -/
theorem frameLoop_states_ids (now : Int) (l : List (Nat × State))
    (hs : List (Nat × Handle)) :
    (frameLoop now l hs).states.map Prod.fst = l.map Prod.fst := by
  rw [frameLoop_states]
  simp

/-- Handle ids are preserved by the iteration phase. -/
theorem frameLoop_handles_ids (now : Int) (l : List (Nat × State))
    (hs : List (Nat × Handle)) :
    (frameLoop now l hs).handles.map Prod.fst = hs.map Prod.fst := by
  induction l generalizing hs with
  | nil => rfl
  | cons p rest ih =>
      by_cases h : (stepRes now p.2).2.1 = StepOut.cont
      · rw [show p = (p.1, p.2) from rfl, frameLoop_cons_cont now p.1 p.2 rest hs h]
        exact ih hs
      · rw [show p = (p.1, p.2) from rfl, frameLoop_cons_stop now p.1 p.2 rest hs h]
        rw [ih]
        cases ha : (stepRes now p.2).1.anim with
        | none => simp [removedDetach, ha]
        | some hid =>
            by_cases ho : (stepRes now p.2).1.owner = none <;>
              simp [removedDetach, ha, ho, updatek_ids]

/-==================== Terminal-event accounting ====================-/

/-- Whether an event is a terminal lifecycle callback (`on_finish` or
`on_cancel`). -/
def termEv (e : Ev) : Bool :=
  match e with
  | Ev.finish => true
  | Ev.cancel => true
  | _ => false

/-- Number of terminal callbacks in an event list. -/
def termEvs (evs : List Ev) : Nat := (evs.filter termEv).length

theorem termEvs_append (a b : List Ev) : termEvs (a ++ b) = termEvs a + termEvs b := by
  simp [termEvs, List.filter_append]

theorem termEvs_nil : termEvs [] = 0 := rfl

/-- `legEnd` fires at most one more terminal callback, and none when it
continues. -/
theorem legEnd_termEvs (now : Int) (leg : ℚ) (evs : List Ev) (s : State) :
    termEvs (legEnd now leg evs s).2.2 ≤ termEvs evs + 1 ∧
    ((legEnd now leg evs s).2.1 = StepOut.cont →
      termEvs (legEnd now leg evs s).2.2 = termEvs evs) := by
  unfold legEnd
  repeat' split
  all_goals (try simp_all [termEvs_append, termEvs, termEv])
  all_goals (by_cases hrev : s.reverse <;> simp_all [termEvs_append, termEvs, termEv])

/-- `stepTick` fires at most one more terminal callback, and none when it
continues. -/
theorem stepTick_termEvs (now : Int) (leg e : ℚ) (evs : List Ev) (s : State) :
    termEvs (stepTick now leg e evs s).2.2 ≤ termEvs evs + 1 ∧
    ((stepTick now leg e evs s).2.1 = StepOut.cont →
      termEvs (stepTick now leg e evs s).2.2 = termEvs evs) := by
  have htick : ∀ l : List Ev, termEvs (l ++ [Ev.tick e]) = termEvs l := by
    intro l
    simp [termEvs_append, termEvs, termEv]
  unfold stepTick
  cases htk : s.spec.tick with
  | none => simpa using legEnd_termEvs now leg evs s
  | some f =>
      cases hr : f e with
      | exn => simp [hr, htick]
      | stop => simp [hr, htick]
      | cont =>
          have h2 := legEnd_termEvs now leg (evs ++ [Ev.tick e]) s
          rw [htick evs] at h2
          simpa [hr] using h2

/-- Specialisation of the `stepTick` bound to a terminal-free event prefix. -/
theorem stepTick_termEvs0 (now : Int) (leg e : ℚ) (s : State) (base : List Ev)
    (hbase : termEvs base = 0) :
    termEvs (stepTick now leg e base s).2.2 ≤ 1 ∧
    ((stepTick now leg e base s).2.1 = StepOut.cont →
      termEvs (stepTick now leg e base s).2.2 = 0) := by
  have h := stepTick_termEvs now leg e base s
  rw [hbase] at h
  simpa using h

/-- One `Step` fires at most one terminal callback, and none when it returns
`true` (continue). -/
theorem Step_termEvs (now : Int) (s : State) :
    termEvs (Step now s).2.2 ≤ 1 ∧
    ((Step now s).2.1 = StepOut.cont → termEvs (Step now s).2.2 = 0) := by
  unfold Step
  by_cases ho : s.owner = none
  · simp [ho, termEvs]
  · by_cases hp : s.paused
    · simp [ho, hp, termEvs]
    · by_cases hd : now - s.start_ms + s.elapsed_ms < s.spec.delay_ms
      · simp [ho, hp, hd, termEvs]
      · simp only [ho, hp, hd, if_neg, if_false, ite_false]
        cases hu : s.spec.on_update with
        | none =>
            simp only [hu, hp, hd, Bool.false_eq_true, if_false, ite_false]
            exact stepTick_termEvs0 now _ _ s [] rfl
        | some g =>
            simp only [hu, hp, hd, Bool.false_eq_true, if_false, ite_false]
            split
            · simp [termEvs, termEv]
            · exact stepTick_termEvs0 now _ _ s [Ev.update _] (by simp [termEvs, termEv])

/-- The per-state frame result fires at most one terminal callback, and none
when the state continues. -/
theorem stepRes_termEvs (now : Int) (s : State) :
    termEvs (stepRes now s).2.2 ≤ 1 ∧
    ((stepRes now s).2.1 = StepOut.cont → termEvs (stepRes now s).2.2 = 0) := by
  unfold stepRes
  by_cases hd : s.dying
  · simp [hd, termEvs]
  · simpa [hd] using Step_termEvs now s

/-==================== Events of one run ====================-/

/-- The events logged for run id `i`, in order. -/
def eventsFor (i : Nat) (evs : List (Nat × Ev)) : List Ev :=
  evs.filterMap (fun p => if p.1 = i then some p.2 else none)

theorem eventsFor_nil (i : Nat) : eventsFor i [] = [] := rfl

theorem eventsFor_append (i : Nat) (a b : List (Nat × Ev)) :
    eventsFor i (a ++ b) = eventsFor i a ++ eventsFor i b := by
  simp [eventsFor, List.filterMap_append]

theorem eventsFor_tag (i j : Nat) (evs : List Ev) :
    eventsFor i (evs.map (fun e => (j, e))) = if j = i then evs else [] := by
  rw [eventsFor, List.filterMap_map]
  by_cases h : j = i
  · subst h
    have : ((fun p : Nat × Ev => if p.1 = j then some p.2 else none) ∘ fun e => (j, e)) =
        fun e => some e := by
      funext e
      simp
    simp [this]
  · simp [h, Function.comp]

/-- States other than `i` contribute nothing to run `i`'s events. -/
theorem eventsFor_flatMap_not_mem (now : Int) (i : Nat) (l : List (Nat × State))
    (h : i ∉ l.map Prod.fst) :
    eventsFor i (l.flatMap (fun p => (stepRes now p.2).2.2.map (fun e => (p.1, e)))) = [] := by
  induction l with
  | nil => rfl
  | cons p t ih =>
      simp only [List.map_cons, List.mem_cons] at h
      push_neg at h
      have hj : ¬ (p.1 = i) := fun hk => h.1 hk.symm
      simp only [List.flatMap_cons, eventsFor_append, eventsFor_tag, hj, if_neg, if_false,
        List.nil_append]
      exact ih h.2

/-- With distinct ids, the frame events of run `i` are exactly its own step
events. -/
theorem frame_eventsFor (now : Int) (i : Nat) (s : State) (l : List (Nat × State))
    (hs : List (Nat × Handle)) (hnd : (l.map Prod.fst).Nodup) (hmem : (i, s) ∈ l) :
    eventsFor i (frameLoop now l hs).events = (stepRes now s).2.2 := by
  rw [frameLoop_events]
  induction l with
  | nil => cases hmem
  | cons p t ih =>
      simp only [List.map_cons, List.nodup_cons] at hnd
      rcases List.mem_cons.mp hmem with hp | hp
      · rw [← hp]
        simp only [List.flatMap_cons, eventsFor_append, eventsFor_tag, if_pos rfl]
        rw [eventsFor_flatMap_not_mem now i t (by rw [← hp] at hnd; exact hnd.1)]
        simp
      · have hi : i ∈ t.map Prod.fst := by
          exact List.mem_map.mpr ⟨(i, s), hp, rfl⟩
        have hj : ¬ (p.1 = i) := fun hk => hnd.1 (hk ▸ hi)
        simp only [List.flatMap_cons, eventsFor_append, eventsFor_tag, hj, if_neg, if_false,
          List.nil_append]
        exact ih hnd.2 hp

/-- Runs not in the active set get no events from a frame. -/
theorem frame_eventsFor_not_mem (now : Int) (i : Nat) (l : List (Nat × State))
    (hs : List (Nat × Handle)) (h : i ∉ l.map Prod.fst) :
    eventsFor i (frameLoop now l hs).events = [] := by
  rw [frameLoop_events]
  exact eventsFor_flatMap_not_mem now i l h

/- The Batteries rational operations are marked irreducible, which blocks
kernel evaluation of concrete traces; restore default reducibility locally so
that `decide` can evaluate the model on concrete inputs. -/
attribute [local semireducible] Rat.mul Rat.sub Rat.inv Rat.add

/-==================== Filtering lemmas ====================-/

/-- The ids of the scheduler's active vector. -/
def activeIds (w : World) : List Nat := w.active.map Prod.fst

theorem ids_filter_fst (l : List (Nat × α)) (q : Nat → Bool) :
    (l.filter (fun p => q p.1)).map Prod.fst = (l.map Prod.fst).filter q := by
  induction l with
  | nil => rfl
  | cons p t ih =>
      by_cases h : q p.1 <;> simp [h, ih]

theorem lookup_filter_pos (l : List (Nat × α)) (q : Nat → Bool) (j : Nat)
    (hq : q j = true) :
    lookup (l.filter (fun p => q p.1)) j = lookup l j := by
  induction l with
  | nil => rfl
  | cons p t ih =>
      by_cases hqp : q p.1
      · simp [List.filter_cons, hqp, lookup_cons, ih]
      · have hp : ¬ (p.1 = j) := by
          intro h
          rw [h, hq] at hqp
          exact hqp rfl
        simp [List.filter_cons, hqp, lookup_cons, hp, ih]

theorem lookup_filter_neg (l : List (Nat × α)) (q : Nat → Bool) (j : Nat)
    (hq : q j = false) :
    lookup (l.filter (fun p => q p.1)) j = none := by
  induction l with
  | nil => rfl
  | cons p t ih =>
      by_cases hqp : q p.1
      · have hp : ¬ (p.1 = j) := by
          intro h
          rw [h, hq] at hqp
          cases hqp
        simp [List.filter_cons, hqp, lookup_cons, hp, ih]
      · simp [List.filter_cons, hqp, ih]

/-==================== C2: yoyo cycle counting ====================-/

/-- The `Yoyo(true).Loop(2).Duration(80)` configuration of the spec's yoyo
scenario, with identity easing, an always-continue tick and finish/cancel
hooks installed. -/
def yoyoSpec : Spec :=
  { duration_ms := 80, loop_count := 2, delay_ms := 0, yoyo := true,
    easing := none, tick := some (fun _ => TickRes.cont), on_update := none,
    on_start := false, on_finish := true, on_cancel := true }

/-- The yoyo scenario right after `Play()` at time 0 (handle id 0, run
id 1). -/
def yoyoAfterPlay : World :=
  runOps [Op.newHandle 7, Op.stage 0 yoyoSpec, Op.play 0 0]

/-- The yoyo scenario stepped at 40/80/120 ms. -/
def yoyoAfter120 : World :=
  runOps [Op.newHandle 7, Op.stage 0 yoyoSpec, Op.play 0 0,
    Op.runFrame 40, Op.runFrame 80, Op.runFrame 120]

/-- The yoyo scenario stepped at 40/80/120/160 ms. -/
def yoyoAfter160 : World :=
  runOps [Op.newHandle 7, Op.stage 0 yoyoSpec, Op.play 0 0,
    Op.runFrame 40, Op.runFrame 80, Op.runFrame 120, Op.runFrame 160]

/-- C2, counterexample: with `Yoyo(true).Loop(2).Duration(80)`, stepped every
40 ms, `on_finish` has already fired by 160 ms although the delivered eased
values `[1/2, 1, 1/2, 0]` contain exactly one forward-increasing leg and one
decreasing leg — a single round trip, not the two round trips the claim
requires before `on_finish`. -/
theorem C2_counterexample :
    finishCount 1 yoyoAfter160 = 1 ∧
    tickValues 1 yoyoAfter160 = [1/2, 1, 1/2, 0] := by
  constructor
  · decide
  · decide

/-- C2, amended: with `Yoyo(true).Loop(2)`, `Play` computes
`cycles = (2+1)/2 = 1`, so the run performs exactly one forward leg and one
reverse leg (one round trip) and then fires `on_finish` exactly once (and
`on_cancel` never), the state leaving the scheduler; `on_finish` has not
fired before the reverse leg completes. -/
theorem C2_amended_one_round_trip :
    (lookup yoyoAfterPlay.active 1).map State.cycles = some 1 ∧
    finishCount 1 yoyoAfter120 = 0 ∧
    finishCount 1 yoyoAfter160 = 1 ∧
    cancelCount 1 yoyoAfter160 = 0 ∧
    tickValues 1 yoyoAfter160 = [1/2, 1, 1/2, 0] ∧
    yoyoAfter160.active.length = 0 := by
  refine ⟨?_, ?_, ?_, ?_, ?_, ?_⟩ <;> decide

/-==================== C3: tick returning false ====================-/

theorem finishCountE_append (r : Nat) (a b : List (Nat × Ev)) :
    finishCountE r (a ++ b) = finishCountE r a + finishCountE r b := by
  simp [finishCountE, List.filter_append]

theorem cancelCountE_append (r : Nat) (a b : List (Nat × Ev)) :
    cancelCountE r (a ++ b) = cancelCountE r a + cancelCountE r b := by
  simp [cancelCountE, List.filter_append]

/-- A tagged event list without terminal events contributes no `on_finish`
and no `on_cancel` counts. -/
theorem counts_tag_of_termEvs_zero (r i : Nat) (evs : List Ev) (h : termEvs evs = 0) :
    finishCountE r (evs.map (fun e => (i, e))) = 0 ∧
    cancelCountE r (evs.map (fun e => (i, e))) = 0 := by
  induction evs with
  | nil => exact ⟨rfl, rfl⟩
  | cons e t ih =>
      rw [termEvs, List.filter_cons] at h
      by_cases ht : termEv e
      · rw [if_pos ht] at h
        simp at h
      · rw [if_neg ht] at h
        have hfin : (e == Ev.finish) = false := by
          cases e <;> simp_all [termEv]
        have hcan : (e == Ev.cancel) = false := by
          cases e <;> simp_all [termEv]
        rcases ih h with ⟨h1, h2⟩
        constructor
        · simp only [List.map_cons, finishCountE, List.filter_cons, hfin, Bool.and_false]
          simpa [finishCountE] using h1
        · simp only [List.map_cons, cancelCountE, List.filter_cons, hcan, Bool.and_false]
          simpa [cancelCountE] using h2

/-- The pointwise form of the weak-reference nulling done on deletion. -/
def ptrNullH (rem : List Nat) (h : Handle) : Handle :=
  match h.live with
  | some r => if rem.contains r then { h with live := none } else h
  | none => h

theorem ptrNull_eq_map (hs : List (Nat × Handle)) (rem : List Nat) :
    ptrNull hs rem = hs.map (fun p => (p.1, ptrNullH rem p.2)) := by
  apply List.map_congr_left
  intro p _
  simp only [ptrNullH]
  cases hl : p.2.live with
  | none => simp [hl]
  | some r =>
      simp only [hl]
      cases hr : rem.contains r <;> simp [hr]

theorem lookup_map_val (l : List (Nat × α)) (g : α → β) (k : Nat) :
    lookup (l.map (fun p => (p.1, g p.2))) k = (lookup l k).map g := by
  induction l with
  | nil => rfl
  | cons p t ih =>
      by_cases h : p.1 = k
      · simp [List.map_cons, lookup_cons, h]
      · simp [List.map_cons, lookup_cons, h, ih]

theorem lookup_ptrNull (hs : List (Nat × Handle)) (rem : List Nat) (k : Nat) :
    lookup (ptrNull hs rem) k = (lookup hs k).map (ptrNullH rem) := by
  rw [ptrNull_eq_map]
  exact lookup_map_val hs (ptrNullH rem) k

/-- A `Step` in which the per-frame tick vetoes (returns false): the state is
returned unchanged, the outcome is a stop, and no terminal callback fired. -/
theorem Step_tick_veto (now : Int) (s : State) (o : Nat) (f : ℚ → TickRes)
    (ho : s.owner = some o) (hp : s.paused = false) (hdel : ¬ (now - s.start_ms + s.elapsed_ms < s.spec.delay_ms))
    (htk : s.spec.tick = some f) (hstop : ∀ q, f q = TickRes.stop)
    (hupd : ∀ g, s.spec.on_update = some g → ∀ q, g q = CbRes.ok) :
    (Step now s).1 = s ∧ (Step now s).2.1 = StepOut.stop ∧ termEvs (Step now s).2.2 = 0 := by
  have ho2 : ¬ (s.owner = none) := by simp [ho]
  unfold Step
  simp only [ho2, hp, hdel, if_neg, if_false, Bool.false_eq_true, ite_false]
  cases hu : s.spec.on_update with
  | none =>
      simp only [stepTick, htk, hstop]
      simp [termEvs, termEv]
  | some g =>
      simp only [hupd g hu]
      simp only [stepTick, htk, hstop]
      simp [termEvs, termEv]

/-- C3, counterexample scenario: a run whose tick immediately requests a stop
(`return false`), with both `on_finish` and `on_cancel` installed. -/
def vetoSpec : Spec :=
  { duration_ms := 100, loop_count := 1, delay_ms := 0, yoyo := false,
    easing := none, tick := some (fun _ => TickRes.stop), on_update := none,
    on_start := false, on_finish := true, on_cancel := true }

/-- The veto scenario after `Play()` at 0 and one frame at 10 ms. -/
def vetoAfterFrame : World :=
  runOps [Op.newHandle 7, Op.stage 0 vetoSpec, Op.play 0 0, Op.runFrame 10]

/-- C3, counterexample: the tick fired (with eased value 1/10) and returned
false, the run was removed from the scheduler — yet `on_finish` was never
invoked (count 0), contradicting the claim that `on_finish` fires. (The
progress cache is still set to 1.0 through the finish bookkeeping path.) -/
theorem C3_counterexample :
    tickValues 1 vetoAfterFrame = [1/10] ∧
    vetoAfterFrame.active.length = 0 ∧
    finishCount 1 vetoAfterFrame = 0 ∧
    cancelCount 1 vetoAfterFrame = 0 ∧
    (lookup vetoAfterFrame.handles 0).map Handle.progress_cache = some 1 := by
  refine ⟨?_, ?_, ?_, ?_, ?_⟩ <;> decide

/-- C3, amended: when the tick returns false during a scheduled `Step` of a
live attached run (owner alive, not paused, past its delay, `on_update` well
behaved), the frame terminates that run through the finish bookkeeping path:
neither `on_finish` nor `on_cancel` is invoked, the handle's cache is set
to 1.0 exactly as for a completed run with its live reference cleared, and
the state leaves the active set. -/
theorem C3_tick_veto_silent_finish_path (now : Int) (w : World) (r : Nat) (s : State)
    (hid : Nat) (h : Handle) (o : Nat) (f : ℚ → TickRes)
    (hact : w.active = [(r, s)])
    (hh : lookup w.handles hid = some h)
    (ha : s.anim = some hid)
    (ho : s.owner = some o) (hp : s.paused = false) (hd : s.dying = false)
    (hdel : ¬ (now - s.start_ms + s.elapsed_ms < s.spec.delay_ms))
    (htk : s.spec.tick = some f) (hstop : ∀ q, f q = TickRes.stop)
    (hupd : ∀ g, s.spec.on_update = some g → ∀ q, g q = CbRes.ok) :
    finishCount r (runFrame now w) = finishCount r w ∧
    cancelCount r (runFrame now w) = cancelCount r w ∧
    lookup (runFrame now w).handles hid = some (handleFinishCache h) ∧
    r ∉ activeIds (runFrame now w) := by
  rcases Step_tick_veto now s o f ho hp hdel htk hstop hupd with ⟨hs1, hs2, hs3⟩
  have hsr : stepRes now s = Step now s := by simp [stepRes, hd]
  have hout : ¬ (stepRes now s).2.1 = StepOut.cont := by
    rw [hsr, hs2]
    intro hc
    cases hc
  have hdetach : removedDetach w.handles (stepRes now s).1 =
      (updatek w.handles hid handleFinishCache, { s with anim := none }) := by
    rw [hsr, hs1]
    simp [removedDetach, ha, ho]
  unfold runFrame
  rw [hact, frameLoop_cons_stop now r s [] w.handles hout, frameLoop_nil]
  rw [hdetach]
  refine ⟨?_, ?_, ?_, ?_⟩
  · rw [finishCount, finishCount]
    simp only [List.append_nil]
    rw [finishCountE_append, hsr,
      (counts_tag_of_termEvs_zero r r (Step now s).2.2 hs3).1]
    omega
  · rw [cancelCount, cancelCount]
    simp only [List.append_nil]
    rw [cancelCountE_append, hsr,
      (counts_tag_of_termEvs_zero r r (Step now s).2.2 hs3).2]
    omega
  · simp only
    rw [lookup_ptrNull, lookup_updatek_self, hh]
    simp [ptrNullH, handleFinishCache]
  · simp [activeIds]

/-- Witness input for C3: a concrete attached run whose tick vetoes. -/
def vetoState : State :=
  { owner := some 7, spec := vetoSpec, start_ms := 0, elapsed_ms := 0,
    paused := false, reverse := false, cycles := 1, anim := some 0, dying := false }

/-- Witness world for C3. -/
def vetoWorld : World where
  handles := [(0, { owner := 7, staging := none, live := some 1, progress_cache := 0, last_spec := some vetoSpec })]
  active := [(1, vetoState)]
  events := []
  next := 2

/-- Witness for C3's amended theorem at the concrete veto world. -/
theorem C3_witness :
    finishCount 1 (runFrame 10 vetoWorld) = finishCount 1 vetoWorld ∧
    cancelCount 1 (runFrame 10 vetoWorld) = cancelCount 1 vetoWorld ∧
    lookup (runFrame 10 vetoWorld).handles 0 =
      some (handleFinishCache { owner := 7, staging := none, live := some 1, progress_cache := 0, last_spec := some vetoSpec }) ∧
    1 ∉ activeIds (runFrame 10 vetoWorld) :=
  C3_tick_veto_silent_finish_path 10 vetoWorld 1 vetoState 0
    { owner := 7, staging := none, live := some 1, progress_cache := 0, last_spec := some vetoSpec }
    7 (fun _ => TickRes.stop) rfl rfl rfl rfl rfl rfl (by decide) rfl
    (fun _ => rfl) (fun g hg => by cases hg)

/-==================== C4: terminal progress determinism ====================-/

/-- Reporting cancellation at progress 0 twice is the same as once. -/
theorem handleCancelCache0_idem (h : Handle) :
    handleCancelCache 0 (handleCancelCache 0 h) = handleCancelCache 0 h := rfl

/-- One `KillFor` step either leaves a handle alone or cancels it at
progress 0. -/
theorem killStep_or (c : Nat) (hs : List (Nat × Handle)) (p : Nat × State) (hid : Nat) :
    lookup (killStep c hs p) hid = lookup hs hid ∨
    lookup (killStep c hs p) hid = (lookup hs hid).map (handleCancelCache 0) := by
  unfold killStep
  by_cases hc : p.2.owner = none ∨ p.2.owner = some c
  · rw [if_pos hc]
    cases ha : p.2.anim with
    | none => exact Or.inl rfl
    | some hid2 =>
        by_cases hh : hid2 = hid
        · subst hh
          exact Or.inr (lookup_updatek_self hs hid2 _)
        · exact Or.inl (lookup_updatek_ne hs hid2 hid _ fun hx => hh hx.symm)
  · rw [if_neg hc]
    exact Or.inl rfl

theorem killStep_lookup_map (c : Nat) (hs : List (Nat × Handle)) (p : Nat × State) (hid : Nat) :
    (lookup (killStep c hs p) hid).map (handleCancelCache 0) =
    (lookup hs hid).map (handleCancelCache 0) := by
  rcases killStep_or c hs p hid with h | h
  · rw [h]
  · have hcomp : (handleCancelCache 0 ∘ handleCancelCache 0) = handleCancelCache 0 :=
      funext fun x => handleCancelCache0_idem x
    rw [h, Option.map_map, hcomp]

/-- Across the whole `KillFor` fold, a handle is either untouched or
cancelled at progress 0. -/
theorem killFold_or (c hid : Nat) (l : List (Nat × State)) :
    ∀ hs : List (Nat × Handle),
      lookup (l.foldl (killStep c) hs) hid = lookup hs hid ∨
      lookup (l.foldl (killStep c) hs) hid = (lookup hs hid).map (handleCancelCache 0) := by
  induction l with
  | nil => intro hs; exact Or.inl rfl
  | cons p t ih =>
      intro hs
      rw [List.foldl_cons]
      rcases ih (killStep c hs p) with h | h
      · rcases killStep_or c hs p hid with h2 | h2
        · exact Or.inl (h.trans h2)
        · exact Or.inr (h.trans h2)
      · rw [h, killStep_lookup_map]
        exact Or.inr rfl

/-- A handle hit by at least one matching attached state in the `KillFor`
fold ends cancelled at progress 0. -/
theorem killFold_lookup_hit (c hid : Nat) (l : List (Nat × State))
    (hs : List (Nat × Handle))
    (hex : ∃ p ∈ l, (p.2.owner = none ∨ p.2.owner = some c) ∧ p.2.anim = some hid) :
    lookup (l.foldl (killStep c) hs) hid = (lookup hs hid).map (handleCancelCache 0) := by
  induction l generalizing hs with
  | nil => rcases hex with ⟨p, hp, _⟩; cases hp
  | cons p t ih =>
      rw [List.foldl_cons]
      rcases hex with ⟨q, hq, hqc, hqa⟩
      rcases List.mem_cons.mp hq with hq | hq
      · subst hq
        have hks : killStep c hs q = updatek hs hid (handleCancelCache 0) := by
          simp [killStep, hqc, hqa]
        rw [hks]
        rcases killFold_or c hid t (updatek hs hid (handleCancelCache 0)) with h | h
        · rw [h, lookup_updatek_self]
        · have hcomp : (handleCancelCache 0 ∘ handleCancelCache 0) = handleCancelCache 0 :=
            funext fun x => handleCancelCache0_idem x
          rw [h, lookup_updatek_self, Option.map_map, hcomp]
      · rw [ih (killStep c hs p) ⟨q, hq, hqc, hqa⟩, killStep_lookup_map]

theorem qclamp_zero : qclamp 0 0 1 = 0 := by
  simp [qclamp]

/-- Clamping an already clamped value changes nothing. -/
theorem qclamp_idem (x : ℚ) : qclamp (qclamp x 0 1) 0 1 = qclamp x 0 1 := by
  have h1 : (0 : ℚ) ≤ qclamp x 0 1 := le_qclamp x 0 1 (by norm_num)
  have h2 : qclamp x 0 1 ≤ 1 := qclamp_le x 0 1
  rw [qclamp, max_eq_left h1, min_eq_left h2]

/-- The live progress value is already clamped. -/
theorem progressLive_qclamp (now : Int) (s : State) :
    qclamp (progressLive now s) 0 1 = progressLive now s := by
  unfold progressLive
  exact qclamp_idem _

/-- C4: terminal progress determinism. For a handle with a live attached run:
immediately after `Stop()` the progress query returns 1; immediately after
`KillAllFor` on the run's owner it returns 0; and immediately after
`Cancel()` it returns exactly the forward-time progress that `Progress()`
reported at the moment of cancellation. -/
theorem C4_terminal_progress (w : World) (hid r : Nat) (h : Handle) (s : State)
    (c : Nat) (now now0 : Int)
    (hh : lookup w.handles hid = some h)
    (hl : h.live = some r)
    (hs : lookup w.active r = some s)
    (ha : s.anim = some hid)
    (ho : s.owner = some c) :
    progressOf (stopOp hid w) hid now = some 1 ∧
    progressOf (killFor c w) hid now = some 0 ∧
    progressOf (cancelOp hid now0 w) hid now = some (progressLive now0 s) ∧
    progressOf w hid now0 = some (progressLive now0 s) := by
  refine ⟨?_, ?_, ?_, ?_⟩
  · unfold stopOp
    rw [hh]
    simp only [hl, hs]
    unfold progressOf removeState
    rw [lookup_ptrNull, lookup_updatek_self, hh]
    simp [ptrNullH, handleFinishCache, handleProgress]
  · unfold killFor progressOf
    have hmem : (r, s) ∈ w.active := lookup_mem w.active r s hs
    rw [show ({ w with
        handles := w.active.reverse.foldl (killStep c) w.handles,
        active := w.active.map fun p =>
          if p.2.owner = none ∨ p.2.owner = some c then
            (p.1, { p.2 with anim := none, dying := true })
          else p } : World).handles = w.active.reverse.foldl (killStep c) w.handles from rfl]
    rw [killFold_lookup_hit c hid w.active.reverse w.handles
      ⟨(r, s), List.mem_reverse.mpr hmem, Or.inr ho, ha⟩, hh]
    simp [handleCancelCache, handleProgress, qclamp_zero]
  · unfold cancelOp unschedule
    rw [hh]
    simp only [hl, hs]
    unfold progressOf removeState
    rw [lookup_ptrNull, lookup_updatek_self, hh]
    simp only [Option.map_some]
    simp [ptrNullH, handleCancelCache, handleProgress, progressLive_qclamp]
  · unfold progressOf
    rw [hh]
    simp [handleProgress, hl, hs]

/-- Witness spec for C4: an always-continue tick. -/
def contSpec : Spec :=
  { duration_ms := 100, loop_count := 1, delay_ms := 0, yoyo := false,
    easing := none, tick := some (fun _ => TickRes.cont), on_update := none,
    on_start := false, on_finish := true, on_cancel := true }

/-- Witness state for C4: a live attached run 30 ms into a 100 ms duration. -/
def c4State : State :=
  { owner := some 7, spec := contSpec, start_ms := 0, elapsed_ms := 0,
    paused := false, reverse := false, cycles := 1, anim := some 0, dying := false }

/-- Witness handle for C4. -/
def c4Handle : Handle :=
  { owner := 7, staging := none, live := some 1, progress_cache := 0,
    last_spec := some contSpec }

/-- Witness world for C4. -/
def c4World : World where
  handles := [(0, c4Handle)]
  active := [(1, c4State)]
  events := []
  next := 2

/-- Witness for C4 at the concrete world: Stop gives 1, KillAllFor gives 0,
Cancel at 30 ms freezes the forward-time progress observed at 30 ms. -/
theorem C4_witness :
    progressOf (stopOp 0 c4World) 0 99 = some 1 ∧
    progressOf (killFor 7 c4World) 0 99 = some 0 ∧
    progressOf (cancelOp 0 30 c4World) 0 99 = some (progressLive 30 c4State) ∧
    progressOf c4World 0 30 = some (progressLive 30 c4State) :=
  C4_terminal_progress c4World 0 1 c4Handle c4State 7 99 30 rfl rfl rfl rfl rfl

/-==================== C8: pause / resume ====================-/

/-- C8: `Pause()` and `Resume()` are guarded no-ops outside their
preconditions; when they apply they rewrite only the timing fields
(`elapsed_ms` / `start_ms`) and the paused flag of the live state — handles,
events and every other state field (in particular `cycles` and `reverse`) are
untouched — and `Step` on a paused state with a live owner returns continue
without advancing anything or firing any callback. -/
theorem C8_pause_resume_guarded (w : World) (hid : Nat) (now : Int) (h : Handle)
    (hh : lookup w.handles hid = some h) :
    (h.live = none → pauseOp hid now w = w) ∧
    (h.live = none → resumeOp hid now w = w) ∧
    (∀ r s, h.live = some r → lookup w.active r = some s → s.paused = true →
      pauseOp hid now w = w) ∧
    (∀ r s, h.live = some r → lookup w.active r = some s → s.paused = false →
      resumeOp hid now w = w) ∧
    (∀ r s, h.live = some r → lookup w.active r = some s → s.paused = false →
      pauseOp hid now w =
        { w with active := updatek w.active r (fun s0 =>
            { s0 with elapsed_ms := s0.elapsed_ms + (now - s0.start_ms), paused := true }) } ∧
      lookup (pauseOp hid now w).active r =
        some { s with elapsed_ms := s.elapsed_ms + (now - s.start_ms), paused := true }) ∧
    (∀ r s, h.live = some r → lookup w.active r = some s → s.paused = true →
      resumeOp hid now w =
        { w with active := updatek w.active r (fun s0 =>
            { s0 with start_ms := now, paused := false }) } ∧
      lookup (resumeOp hid now w).active r =
        some { s with start_ms := now, paused := false }) ∧
    (∀ (now2 : Int) (s : State), s.paused = true → s.owner ≠ none →
      Step now2 s = (s, StepOut.cont, [])) := by
  refine ⟨?_, ?_, ?_, ?_, ?_, ?_, ?_⟩
  · intro hl
    unfold pauseOp
    rw [hh]
    simp [hl]
  · intro hl
    unfold resumeOp
    rw [hh]
    simp [hl]
  · intro r s hl hsl hp
    unfold pauseOp
    rw [hh]
    simp [hl, hsl, hp]
  · intro r s hl hsl hp
    unfold resumeOp
    rw [hh]
    simp [hl, hsl, hp]
  · intro r s hl hsl hp
    constructor
    · unfold pauseOp
      rw [hh]
      simp [hl, hsl, hp]
    · unfold pauseOp
      rw [hh]
      simp only [hl, hsl, hp, Bool.false_eq_true, if_false, ite_false]
      rw [lookup_updatek_self, hsl]
      rfl
  · intro r s hl hsl hp
    constructor
    · unfold resumeOp
      rw [hh]
      simp [hl, hsl, hp]
    · unfold resumeOp
      rw [hh]
      simp only [hl, hsl, hp, if_true]
      rw [lookup_updatek_self, hsl]
      rfl
  · intro now2 s hp ho
    unfold Step
    simp [ho, hp]

/-- Witness world for C8: one live unpaused run and one live paused run on
two handles. -/
def c8PausedState : State :=
  { owner := some 7, spec := contSpec, start_ms := 0, elapsed_ms := 20,
    paused := true, reverse := false, cycles := 1, anim := some 2, dying := false }

/-- Witness world for C8 (handle 0 unpaused run 1, handle 2 paused run 3). -/
def c8World : World where
  handles := [(0, c4Handle), (2, { owner := 8, staging := none, live := some 3, progress_cache := 0, last_spec := some contSpec })]
  active := [(1, c4State), (3, c8PausedState)]
  events := []
  next := 4

/-- Witness for C8, applying the theorem at the concrete world with the
unpaused run's handle. -/
theorem C8_witness :
    (c4Handle.live = none → pauseOp 0 30 c8World = c8World) ∧
    (c4Handle.live = none → resumeOp 0 30 c8World = c8World) ∧
    (∀ r s, c4Handle.live = some r → lookup c8World.active r = some s → s.paused = true →
      pauseOp 0 30 c8World = c8World) ∧
    (∀ r s, c4Handle.live = some r → lookup c8World.active r = some s → s.paused = false →
      resumeOp 0 30 c8World = c8World) ∧
    (∀ r s, c4Handle.live = some r → lookup c8World.active r = some s → s.paused = false →
      pauseOp 0 30 c8World =
        { c8World with active := updatek c8World.active r (fun s0 =>
            { s0 with elapsed_ms := s0.elapsed_ms + (30 - s0.start_ms), paused := true }) } ∧
      lookup (pauseOp 0 30 c8World).active r =
        some { s with elapsed_ms := s.elapsed_ms + (30 - s.start_ms), paused := true }) ∧
    (∀ r s, c4Handle.live = some r → lookup c8World.active r = some s → s.paused = true →
      resumeOp 0 30 c8World =
        { c8World with active := updatek c8World.active r (fun s0 =>
            { s0 with start_ms := 30, paused := false }) } ∧
      lookup (resumeOp 0 30 c8World).active r =
        some { s with start_ms := 30, paused := false }) ∧
    (∀ (now2 : Int) (s : State), s.paused = true → s.owner ≠ none →
      Step now2 s = (s, StepOut.cont, [])) :=
  C8_pause_resume_guarded c8World 0 30 c4Handle rfl

/-==================== C10: Play over a live run ====================-/

/-- `legEnd` never changes the identity-relevant fields of a state. -/
theorem legEnd_preserves (now : Int) (leg : ℚ) (evs : List Ev) (s : State) :
    (legEnd now leg evs s).1.owner = s.owner ∧ (legEnd now leg evs s).1.spec = s.spec ∧
    (legEnd now leg evs s).1.anim = s.anim ∧ (legEnd now leg evs s).1.paused = s.paused ∧
    (legEnd now leg evs s).1.dying = s.dying := by
  unfold legEnd
  repeat' split
  all_goals (try simp)
  all_goals (by_cases hrev : s.reverse <;> simp [hrev])

/-- `stepTick` never changes the identity-relevant fields of a state. -/
theorem stepTick_preserves (now : Int) (leg e : ℚ) (evs : List Ev) (s : State) :
    (stepTick now leg e evs s).1.owner = s.owner ∧ (stepTick now leg e evs s).1.spec = s.spec ∧
    (stepTick now leg e evs s).1.anim = s.anim ∧ (stepTick now leg e evs s).1.paused = s.paused ∧
    (stepTick now leg e evs s).1.dying = s.dying := by
  unfold stepTick
  cases htk : s.spec.tick with
  | none => exact legEnd_preserves now leg evs s
  | some f =>
      cases hr : f e with
      | exn => simp [hr]
      | stop => simp [hr]
      | cont =>
          simp only [hr]
          exact legEnd_preserves now leg (evs ++ [Ev.tick e]) s

/-- `Step` never changes the owner, spec, back-pointer, paused flag or dying
flag of a state: only the timing and direction bookkeeping moves. -/
theorem Step_preserves (now : Int) (s : State) :
    (Step now s).1.owner = s.owner ∧ (Step now s).1.spec = s.spec ∧
    (Step now s).1.anim = s.anim ∧ (Step now s).1.paused = s.paused ∧
    (Step now s).1.dying = s.dying := by
  unfold Step
  by_cases ho : s.owner = none
  · simp [ho]
  · by_cases hp : s.paused
    · simp [ho, hp]
    · by_cases hd : now - s.start_ms + s.elapsed_ms < s.spec.delay_ms
      · simp [ho, hp, hd]
      · simp only [ho, hp, hd, if_neg, if_false, ite_false]
        cases hu : s.spec.on_update with
        | none =>
            simp only [hu, hp, hd, Bool.false_eq_true, if_false, ite_false]
            refine ⟨?_, ?_, ?_, ?_, ?_⟩
            · exact (stepTick_preserves now _ _ [] s).1
            · exact (stepTick_preserves now _ _ [] s).2.1
            · exact (stepTick_preserves now _ _ [] s).2.2.1
            · rw [(stepTick_preserves now _ _ [] s).2.2.2.1]
              simpa using hp
            · exact (stepTick_preserves now _ _ [] s).2.2.2.2
        | some g =>
            simp only [hu, hp, hd, Bool.false_eq_true, if_false, ite_false]
            split
            · refine ⟨rfl, rfl, rfl, ?_, rfl⟩
              simpa using hp
            · refine ⟨?_, ?_, ?_, ?_, ?_⟩
              · exact (stepTick_preserves now _ _ [Ev.update _] s).1
              · exact (stepTick_preserves now _ _ [Ev.update _] s).2.1
              · exact (stepTick_preserves now _ _ [Ev.update _] s).2.2.1
              · rw [(stepTick_preserves now _ _ [Ev.update _] s).2.2.2.1]
                simpa using hp
              · exact (stepTick_preserves now _ _ [Ev.update _] s).2.2.2.2

/-- The `State` built by `Animation::Play` from handle `h` and staged spec
`sp` at time `now`. -/
def playState (hid : Nat) (h : Handle) (sp : Spec) (now : Int) : State :=
  { owner := some h.owner, spec := sp, start_ms := now, elapsed_ms := 0,
    paused := false, reverse := false,
    cycles := if sp.loop_count < 0 then intMax
              else if sp.yoyo then (sp.loop_count + 1) / 2
              else sp.loop_count,
    anim := some hid, dying := false }

/-- `Play` with a fresh staging unfolds to: overwrite the handle, append the
new state, log `on_start`, bump the id counter. -/
theorem play_eq (w : World) (hid : Nat) (h : Handle) (sp : Spec) (now : Int)
    (hh : lookup w.handles hid = some h) (hst : h.staging = some sp) :
    play hid now w =
      { handles := updatek w.handles hid (fun h0 =>
          { h0 with staging := none, last_spec := some sp, live := some w.next, progress_cache := 0 }),
        active := w.active ++ [(w.next, playState hid h sp now)],
        events := w.events ++ (if sp.on_start then [(w.next, Ev.start)] else []),
        next := w.next + 1 } := by
  unfold play
  rw [hh]
  simp [hst, playState]

/-- C10: calling `Play()` with a staged spec while a run is live does not
cancel, detach or remove the previous state: it stays in the active set with
its back-pointer intact and no `on_cancel` (or `on_finish`) fires for it;
the handle's live reference and progress cache are simply overwritten for the
new run. Consequently, when the abandoned state later stops in a frame in
which the new state continues, it writes back into the handle: the live
reference to the new run is wiped and the cache forced to 1.0 while the new
run is still scheduled and still points at the handle. -/
theorem C10_play_abandons_live_run (w : World) (hid r1 : Nat) (h : Handle) (s1 : State)
    (sp : Spec) (now : Int)
    (hact : w.active = [(r1, s1)])
    (hh : lookup w.handles hid = some h)
    (hst : h.staging = some sp)
    (hl : h.live = some r1)
    (ha : s1.anim = some hid)
    (hr : r1 ≠ w.next) :
    lookup (play hid now w).active r1 = some s1 ∧
    cancelCount r1 (play hid now w) = cancelCount r1 w ∧
    finishCount r1 (play hid now w) = finishCount r1 w ∧
    lookup (play hid now w).handles hid =
      some { h with staging := none, last_spec := some sp, live := some w.next, progress_cache := 0 } ∧
    lookup (play hid now w).active w.next = some (playState hid h sp now) ∧
    (∀ now2 : Int, s1.dying = false → (Step now2 s1).2.1 = StepOut.stop →
      s1.owner ≠ none →
      (Step now2 (playState hid h sp now)).2.1 = StepOut.cont →
      lookup (runFrame now2 (play hid now w)).handles hid =
        some (handleFinishCache { h with staging := none, last_spec := some sp, live := some w.next, progress_cache := 0 }) ∧
      (lookup (runFrame now2 (play hid now w)).active w.next).map State.anim =
        some (some hid)) := by
  rw [play_eq w hid h sp now hh hst, hact]
  refine ⟨?_, ?_, ?_, ?_, ?_, ?_⟩
  · show lookup ((r1, s1) :: [(w.next, playState hid h sp now)]) r1 = some s1
    rw [lookup_cons]
    simp
  · unfold cancelCount
    cases hos : sp.on_start
    · simp
    · simp only [hos, if_pos]
      rw [cancelCountE_append]
      have : cancelCountE r1 [(w.next, Ev.start)] = 0 := by
        simp [cancelCountE, hr]
      rw [this]
      omega
  · unfold finishCount
    cases hos : sp.on_start
    · simp
    · simp only [hos, if_pos]
      rw [finishCountE_append]
      have : finishCountE r1 [(w.next, Ev.start)] = 0 := by
        simp [finishCountE, hr]
      rw [this]
      omega
  · rw [lookup_updatek_self, hh]
    rfl
  · show lookup ((r1, s1) :: [(w.next, playState hid h sp now)]) w.next = some (playState hid h sp now)
    rw [lookup_cons]
    simp only [hr, if_neg, if_false]
    rw [lookup_cons]
    simp
  · intro now2 hd1 hstop ho1 hcont
    have hsr1 : stepRes now2 s1 = Step now2 s1 := by simp [stepRes, hd1]
    have hout1 : ¬ (stepRes now2 s1).2.1 = StepOut.cont := by
      rw [hsr1, hstop]
      intro hc
      cases hc
    have hsr2 : stepRes now2 (playState hid h sp now) = Step now2 (playState hid h sp now) := by
      simp [stepRes, playState]
    have hout2 : (stepRes now2 (playState hid h sp now)).2.1 = StepOut.cont := by
      rw [hsr2, hcont]
    rcases Step_preserves now2 s1 with ⟨hpo, _, hpa, _, _⟩
    have hdet : removedDetach (updatek w.handles hid (fun h0 =>
        { h0 with staging := none, last_spec := some sp, live := some w.next, progress_cache := 0 })) (stepRes now2 s1).1 =
        (updatek (updatek w.handles hid (fun h0 =>
          { h0 with staging := none, last_spec := some sp, live := some w.next, progress_cache := 0 })) hid handleFinishCache,
         { (stepRes now2 s1).1 with anim := none }) := by
      rw [hsr1]
      unfold removedDetach
      rw [hpa, ha]
      have : ¬ ((Step now2 s1).1.owner = none) := by
        rw [hpo]
        exact ho1
      simp [this]
    unfold runFrame
    rw [show ((r1, s1) :: ([] : List (Nat × State))) ++ [(w.next, playState hid h sp now)] =
        (r1, s1) :: [(w.next, playState hid h sp now)] from rfl]
    rw [frameLoop_cons_stop now2 r1 s1 [(w.next, playState hid h sp now)] _ hout1]
    rw [hdet]
    rw [frameLoop_cons_cont now2 w.next (playState hid h sp now) [] _ hout2, frameLoop_nil]
    constructor
    · rw [lookup_ptrNull, lookup_updatek_self, lookup_updatek_self, hh]
      simp [ptrNullH, handleFinishCache]
    · have hanim2 : (Step now2 (playState hid h sp now)).1.anim = some hid :=
        (Step_preserves now2 (playState hid h sp now)).2.2.1
      have hb1 : (r1 == w.next) = false := by
        simp [hr]
      rw [hsr2]
      simp [lookup_cons, List.filter_cons, hb1, hanim2, Ne.symm hr]

/-- Witness handle for C10: a live run (id 1) and a freshly staged spec. -/
def c10Handle : Handle :=
  { owner := 7, staging := some contSpec, live := some 1, progress_cache := 1/4,
    last_spec := some vetoSpec }

/-- Witness world for C10. -/
def c10World : World where
  handles := [(0, c10Handle)]
  active := [(1, vetoState)]
  events := []
  next := 2

/-- Witness for C10 at the concrete world: playing over the live run 1. -/
theorem C10_witness :
    lookup (play 0 0 c10World).active 1 = some vetoState ∧
    cancelCount 1 (play 0 0 c10World) = cancelCount 1 c10World ∧
    finishCount 1 (play 0 0 c10World) = finishCount 1 c10World ∧
    lookup (play 0 0 c10World).handles 0 =
      some { c10Handle with staging := none, last_spec := some contSpec, live := some c10World.next, progress_cache := 0 } ∧
    lookup (play 0 0 c10World).active c10World.next = some (playState 0 c10Handle contSpec 0) ∧
    (∀ now2 : Int, vetoState.dying = false → (Step now2 vetoState).2.1 = StepOut.stop →
      vetoState.owner ≠ none →
      (Step now2 (playState 0 c10Handle contSpec 0)).2.1 = StepOut.cont →
      lookup (runFrame now2 (play 0 0 c10World)).handles 0 =
        some (handleFinishCache { c10Handle with staging := none, last_spec := some contSpec, live := some c10World.next, progress_cache := 0 }) ∧
      (lookup (runFrame now2 (play 0 0 c10World)).active c10World.next).map State.anim =
        some (some 0)) :=
  C10_play_abandons_live_run c10World 0 1 c10Handle vetoState contSpec 0
    rfl rfl rfl rfl rfl (by decide)

/-==================== C6: exception isolation in RunFrame ====================-/

/-- With distinct ids, membership determines lookup. -/
theorem lookup_of_mem_nodup (l : List (Nat × α)) (j : Nat) (a : α)
    (hnd : (l.map Prod.fst).Nodup) (hmem : (j, a) ∈ l) : lookup l j = some a := by
  induction l with
  | nil => cases hmem
  | cons p t ih =>
      simp only [List.map_cons, List.nodup_cons] at hnd
      rw [lookup_cons]
      rcases List.mem_cons.mp hmem with hp | hp
      · rw [← hp]
        simp
      · have hj : j ∈ t.map Prod.fst := List.mem_map.mpr ⟨(j, a), hp, rfl⟩
        have hne : ¬ (p.1 = j) := fun hk => hnd.1 (hk ▸ hj)
        rw [if_neg hne]
        exact ih hnd.2 hp

/-- With distinct ids, whether an id is collected for removal by a frame is
determined by its own state's step outcome. -/
theorem mem_frame_removed (now : Int) (l : List (Nat × State)) (hs : List (Nat × Handle))
    (j : Nat) (s : State) (hnd : (l.map Prod.fst).Nodup) (hmem : (j, s) ∈ l) :
    j ∈ (frameLoop now l hs).removed ↔ ¬ (stepRes now s).2.1 = StepOut.cont := by
  rw [frameLoop_removed]
  constructor
  · intro hj
    rcases List.mem_map.mp hj with ⟨p, hp, hpj⟩
    rcases List.mem_filter.mp hp with ⟨hpl, hpc⟩
    have hps : p = (j, s) := by
      have := lookup_of_mem_nodup l j s hnd hmem
      have h2 : lookup l p.1 = some p.2 := lookup_of_mem_nodup l p.1 p.2 hnd
        (by rw [show (p.1, p.2) = p from rfl]; exact hpl)
      rw [hpj] at h2
      rw [this] at h2
      have : p.2 = s := by
        injection h2 with h3
        exact h3.symm
      rw [show p = (p.1, p.2) from rfl, hpj, this]
    rw [hps] at hpc
    simp only [Bool.not_eq_true'] at hpc
    intro hc
    rw [hc] at hpc
    simp at hpc
  · intro hout
    apply List.mem_map.mpr
    refine ⟨(j, s), List.mem_filter.mpr ⟨hmem, ?_⟩, rfl⟩
    simp only [Bool.not_eq_true']
    rw [beq_eq_false_iff_ne]
    exact hout

theorem contains_true_of_mem (l : List Nat) (a : Nat) (h : a ∈ l) :
    l.contains a = true :=
  List.elem_eq_true_of_mem h

theorem contains_false_of_not_mem (l : List Nat) (a : Nat) (h : a ∉ l) :
    l.contains a = false := by
  cases hc : l.contains a
  · rfl
  · exact absurd (List.mem_of_elem_eq_true hc) h

/-- C6: an exception thrown by a user callback during a scheduled `Step` is
confined to that one animation. If state `i` throws in a frame, then after
`RunFrame`: `i` alone is stopped and removed; every sibling `j` ends exactly
where its own `Step` puts it (kept with its own stepped fields if it
continues, removed if it stops on its own — in either case unaffected by the
failure); and every non-dying sibling was actually stepped, logging exactly
its own callback events. The exception never escapes: `runFrame` is a total
function and the throwing outcome is converted into the removal of `i`. -/
theorem C6_exception_isolated (w : World) (now : Int) (i : Nat) (si : State)
    (hnd : (activeIds w).Nodup)
    (hmem : (i, si) ∈ w.active)
    (hd : si.dying = false)
    (hexn : (Step now si).2.1 = StepOut.exn) :
    i ∉ activeIds (runFrame now w) ∧
    (∀ j sj, (j, sj) ∈ w.active → j ≠ i →
      lookup (runFrame now w).active j =
        (if sj.dying = false ∧ (Step now sj).2.1 = StepOut.cont
         then some (Step now sj).1 else none)) ∧
    (∀ j sj, (j, sj) ∈ w.active → j ≠ i → sj.dying = false →
      eventsFor j (runFrame now w).events = eventsFor j w.events ++ (Step now sj).2.2) := by
  have hnd2 : (w.active.map Prod.fst).Nodup := hnd
  have houti : ¬ (stepRes now si).2.1 = StepOut.cont := by
    simp only [stepRes, hd, Bool.false_eq_true, if_false, ite_false]
    rw [hexn]
    intro hc
    cases hc
  have hiRem : i ∈ (frameLoop now w.active w.handles).removed :=
    (mem_frame_removed now w.active w.handles i si hnd2 hmem).mpr houti
  refine ⟨?_, ?_, ?_⟩
  · show i ∉ ((frameLoop now w.active w.handles).states.filter
      (fun p => !(frameLoop now w.active w.handles).removed.contains p.1)).map Prod.fst
    intro hcon
    rcases List.mem_map.mp hcon with ⟨p, hpmem, hpi⟩
    have hpred := (List.mem_filter.mp hpmem).2
    rw [hpi, contains_true_of_mem _ _ hiRem] at hpred
    simp at hpred
  · intro j sj hjmem hji
    show lookup ((frameLoop now w.active w.handles).states.filter
      (fun p => !(frameLoop now w.active w.handles).removed.contains p.1)) j = _
    by_cases hout : (stepRes now sj).2.1 = StepOut.cont
    · have hjNotRem : j ∉ (frameLoop now w.active w.handles).removed := by
        rw [mem_frame_removed now w.active w.handles j sj hnd2 hjmem]
        simp [hout]
      have hq : (fun n => !(frameLoop now w.active w.handles).removed.contains n) j = true := by
        show (!(frameLoop now w.active w.handles).removed.contains j) = true
        rw [contains_false_of_not_mem _ _ hjNotRem]
        rfl
      rw [lookup_filter_pos ((frameLoop now w.active w.handles).states)
        (fun n => !(frameLoop now w.active w.handles).removed.contains n) j hq,
        frameLoop_states, lookup_map_val,
        lookup_of_mem_nodup w.active j sj hnd2 hjmem]
      have hdj : sj.dying = false := by
        by_contra hcon
        have hdy : sj.dying = true := by
          cases hdyy : sj.dying
          · exact absurd hdyy hcon
          · rfl
        rw [stepRes, hdy] at hout
        simp at hout
      have houtS : (Step now sj).2.1 = StepOut.cont := by
        rw [stepRes, hdj] at hout
        simpa using hout
      rw [if_pos ⟨hdj, houtS⟩]
      have hss : stepStateOf now sj = (Step now sj).1 := by
        rw [stepStateOf, if_pos hout, stepRes, hdj]
        simp
      simp [hss]
    · have hjRem : j ∈ (frameLoop now w.active w.handles).removed :=
        (mem_frame_removed now w.active w.handles j sj hnd2 hjmem).mpr hout
      have hq : (fun n => !(frameLoop now w.active w.handles).removed.contains n) j = false := by
        show (!(frameLoop now w.active w.handles).removed.contains j) = false
        rw [contains_true_of_mem _ _ hjRem]
        rfl
      rw [lookup_filter_neg ((frameLoop now w.active w.handles).states)
        (fun n => !(frameLoop now w.active w.handles).removed.contains n) j hq]
      have hnc : ¬ (sj.dying = false ∧ (Step now sj).2.1 = StepOut.cont) := by
        intro hcon
        apply hout
        rw [stepRes, hcon.1]
        simpa using hcon.2
      rw [if_neg hnc]
  · intro j sj hjmem hji hdj
    show eventsFor j (w.events ++ (frameLoop now w.active w.handles).events) = _
    rw [eventsFor_append,
      frame_eventsFor now j sj w.active w.handles hnd2 hjmem]
    rw [stepRes, hdj]
    simp

/-- Witness spec for C6 whose per-frame tick throws. -/
def exnSpec : Spec :=
  { duration_ms := 100, loop_count := 1, delay_ms := 0, yoyo := false,
    easing := none, tick := some (fun _ => TickRes.exn), on_update := none,
    on_start := false, on_finish := true, on_cancel := true }

/-- Witness state for C6 whose on-frame tick throws. -/
def exnState : State :=
  { owner := some 7, spec := exnSpec, start_ms := 0, elapsed_ms := 0,
    paused := false, reverse := false, cycles := 1, anim := none, dying := false }

/-- Witness world for C6: the throwing run 1 next to the healthy run 3. -/
def c6World : World where
  handles := []
  active := [(1, exnState), (3, c4State)]
  events := []
  next := 4

/-- Witness for C6 at the concrete world: run 1 throws at 10 ms, run 3 is
still stepped and keeps its own stepped state. -/
theorem C6_witness :
    1 ∉ activeIds (runFrame 10 c6World) ∧
    (∀ j sj, (j, sj) ∈ c6World.active → j ≠ 1 →
      lookup (runFrame 10 c6World).active j =
        (if sj.dying = false ∧ (Step 10 sj).2.1 = StepOut.cont
         then some (Step 10 sj).1 else none)) ∧
    (∀ j sj, (j, sj) ∈ c6World.active → j ≠ 1 → sj.dying = false →
      eventsFor j (runFrame 10 c6World).events = eventsFor j c6World.events ++ (Step 10 sj).2.2) :=
  C6_exception_isolated c6World 10 1 exnState (by decide)
    (List.mem_cons_self _ _) rfl (by decide)

/-==================== Reachability invariant (C1 / C5) ====================-/

/-- A progress cache within `[0, 1]`. -/
def cacheOK (h : Handle) : Prop := 0 ≤ h.progress_cache ∧ h.progress_cache ≤ 1

/-- The invariant maintained by every public operation: caches are clamped,
each run has fired at most one terminal callback and none while it is still
scheduled, weak handle references point into the active set, all logged and
scheduled ids are below the fresh-id counter, and active ids are distinct. -/
structure WInv (w : World) : Prop where
  cache : ∀ p ∈ w.handles, cacheOK p.2
  term_le : ∀ r, termEvs (eventsFor r w.events) ≤ 1
  term_dead : ∀ r, 1 ≤ termEvs (eventsFor r w.events) → r ∉ activeIds w
  live_active : ∀ p ∈ w.handles, ∀ rr, p.2.live = some rr → rr ∈ activeIds w
  events_lt : ∀ p ∈ w.events, p.1 < w.next
  active_lt : ∀ rr ∈ activeIds w, rr < w.next
  nodup : (activeIds w).Nodup

theorem winv_init : WInv World.init := by
  refine ⟨?_, ?_, ?_, ?_, ?_, ?_, ?_⟩ <;> simp [World.init, activeIds, eventsFor, termEvs]

theorem cacheOK_cancel (p : ℚ) (h : Handle) (_ : cacheOK h) :
    cacheOK (handleCancelCache p h) :=
  ⟨le_qclamp p 0 1 (by norm_num), qclamp_le p 0 1⟩

theorem cacheOK_finish (h : Handle) (_ : cacheOK h) : cacheOK (handleFinishCache h) := by
  constructor <;> norm_num [handleFinishCache]

theorem eventsFor_singleton (r i : Nat) (e : Ev) :
    eventsFor r [(i, e)] = if i = r then [e] else [] := by
  by_cases h : i = r <;> simp [eventsFor, h]

/-- Appending non-terminal events does not change terminal counts. -/
theorem termEvs_eventsFor_start (r i : Nat) (evs : List (Nat × Ev)) :
    termEvs (eventsFor r (evs ++ [(i, Ev.start)])) = termEvs (eventsFor r evs) := by
  rw [eventsFor_append, termEvs_append, eventsFor_singleton]
  by_cases h : i = r <;> simp [h, termEvs, termEv]

/-- Every event logged by a frame iteration carries the id of an active
state. -/
theorem frame_events_ids (now : Int) (l : List (Nat × State)) (hs : List (Nat × Handle)) :
    ∀ p ∈ (frameLoop now l hs).events, p.1 ∈ l.map Prod.fst := by
  rw [frameLoop_events]
  intro p hp
  rcases List.mem_flatMap.mp hp with ⟨q, hq, hpq⟩
  rcases List.mem_map.mp hpq with ⟨e, _, he⟩
  rw [← he]
  exact List.mem_map.mpr ⟨q, hq, rfl⟩

/-- Membership in the ids of a filtered association list. -/
theorem mem_ids_filter (l : List (Nat × α)) (pred : Nat × α → Bool) (rr : Nat) :
    rr ∈ (l.filter pred).map Prod.fst ↔ ∃ p, p ∈ l ∧ pred p = true ∧ p.1 = rr := by
  simp only [List.mem_map, List.mem_filter]
  constructor
  · rintro ⟨p, ⟨h1, h2⟩, h3⟩
    exact ⟨p, h1, h2, h3⟩
  · rintro ⟨p, h1, h2, h3⟩
    exact ⟨p, ⟨h1, h2⟩, h3⟩

theorem nodup_ids_filter (l : List (Nat × α)) (pred : Nat × α → Bool)
    (h : (l.map Prod.fst).Nodup) : ((l.filter pred).map Prod.fst).Nodup :=
  List.Nodup.sublist (List.Sublist.map Prod.fst (List.filter_sublist l)) h

/-- Decomposition of membership after weak-reference nulling. -/
theorem ptrNull_mem (hs : List (Nat × Handle)) (rem : List Nat) (p : Nat × Handle)
    (hp : p ∈ ptrNull hs rem) :
    ∃ q ∈ hs, p.1 = q.1 ∧ (p.2 = q.2 ∨ p.2 = { q.2 with live := none }) ∧
      (∀ rr, p.2.live = some rr → q.2.live = some rr ∧ rr ∉ rem) := by
  rw [ptrNull_eq_map] at hp
  rcases List.mem_map.mp hp with ⟨q, hq, hqe⟩
  subst hqe
  refine ⟨q, hq, rfl, ?_⟩
  simp only [ptrNullH]
  cases hl : q.2.live with
  | none =>
      refine ⟨Or.inl rfl, ?_⟩
      intro rr hrr
      rw [hl] at hrr
      cases hrr
  | some rr0 =>
      by_cases hc : rem.contains rr0 = true
      · simp only [hc, if_true]
        exact ⟨Or.inr trivial, fun rr hrr => by simp at hrr⟩
      · have hc2 : rem.contains rr0 = false := by
          cases hcc : rem.contains rr0
          · rfl
          · exact absurd hcc hc
        simp only [hc2, Bool.false_eq_true, if_false]
        refine ⟨Or.inl trivial, ?_⟩
        intro rr hrr
        rw [hl] at hrr
        have heq : rr0 = rr := by injection hrr
        subst heq
        refine ⟨rfl, fun hmem => ?_⟩
        rw [contains_true_of_mem _ _ hmem] at hc2
        cases hc2

/-- Ids are unchanged by a conditional value-rewriting map. -/
theorem ids_map_keyed (l : List (Nat × α)) (cond : Nat × α → Prop) [DecidablePred cond]
    (f : Nat × α → α) :
    ((l.map fun p => if cond p then (p.1, f p) else p).map Prod.fst) = l.map Prod.fst := by
  rw [List.map_map]
  apply List.map_congr_left
  intro p _
  by_cases h : cond p <;> simp [h]

/-- Head decompositions of the per-run counters, used to relate them to the
terminal-event count. -/
theorem finishCountE_cons (r i : Nat) (e : Ev) (t : List (Nat × Ev)) :
    finishCountE r ((i, e) :: t) =
      (if i = r ∧ e = Ev.finish then 1 else 0) + finishCountE r t := by
  simp only [finishCountE, List.filter_cons]
  by_cases h : ((i == r) && (e == Ev.finish)) = true
  · have hc : i = r ∧ e = Ev.finish := by simpa [Bool.and_eq_true, beq_iff_eq] using h
    simp [h, hc, Nat.add_comm]
  · have hc : ¬ (i = r ∧ e = Ev.finish) := by
      intro hcon
      exact h (by simp [hcon.1, hcon.2])
    simp [h, hc]

theorem cancelCountE_cons (r i : Nat) (e : Ev) (t : List (Nat × Ev)) :
    cancelCountE r ((i, e) :: t) =
      (if i = r ∧ e = Ev.cancel then 1 else 0) + cancelCountE r t := by
  simp only [cancelCountE, List.filter_cons]
  by_cases h : ((i == r) && (e == Ev.cancel)) = true
  · have hc : i = r ∧ e = Ev.cancel := by simpa [Bool.and_eq_true, beq_iff_eq] using h
    simp [h, hc, Nat.add_comm]
  · have hc : ¬ (i = r ∧ e = Ev.cancel) := by
      intro hcon
      exact h (by simp [hcon.1, hcon.2])
    simp [h, hc]

theorem eventsFor_cons (r i : Nat) (e : Ev) (t : List (Nat × Ev)) :
    eventsFor r ((i, e) :: t) = (if i = r then [e] else []) ++ eventsFor r t := by
  by_cases h : i = r <;> simp [eventsFor, List.filterMap_cons, h]

theorem termEvs_cons (e : Ev) (t : List Ev) :
    termEvs (e :: t) = (if termEv e then 1 else 0) + termEvs t := by
  simp only [termEvs, List.filter_cons]
  by_cases h : termEv e <;> simp [h, Nat.add_comm]

/-- Terminal counts of the two counters sum to the terminal events of the
run. -/
theorem counts_eq_termEvs (r : Nat) (evs : List (Nat × Ev)) :
    finishCountE r evs + cancelCountE r evs = termEvs (eventsFor r evs) := by
  induction evs with
  | nil => rfl
  | cons p t ih =>
      rcases p with ⟨i, e⟩
      rw [finishCountE_cons, cancelCountE_cons, eventsFor_cons]
      by_cases hi : i = r
      · rw [if_pos hi]
        rw [show ([e] ++ eventsFor r t) = e :: eventsFor r t from rfl, termEvs_cons]
        cases e <;> simp [termEv, hi] <;> omega
      · rw [show ((if i = r then [e] else []) ++ eventsFor r t) = eventsFor r t by simp [hi]]
        simp only [hi, false_and, if_false]
        omega

theorem exists_of_mem_ids (l : List (Nat × α)) (rr : Nat) (h : rr ∈ l.map Prod.fst) :
    ∃ a, (rr, a) ∈ l := by
  rcases List.mem_map.mp h with ⟨p, hp, hpr⟩
  exact ⟨p.2, by rw [← hpr]; exact hp⟩

theorem eventsFor_nil_of_other (r r2 : Nat) (evs : List (Nat × Ev))
    (hids : ∀ p ∈ evs, p.1 = r) (hne : r2 ≠ r) : eventsFor r2 evs = [] := by
  induction evs with
  | nil => rfl
  | cons p t ih =>
      have hp := hids p (List.mem_cons_self p t)
      rcases p with ⟨i, e⟩
      rw [eventsFor_cons]
      have : ¬ (i = r2) := by
        intro hc
        exact hne (by rw [← hc]; exact hp)
      simp only [this, if_false, List.nil_append]
      exact ih fun q hq => hids q (List.mem_cons_of_mem _ hq)

/-- Replacing the active list by one with the same ids keeps the invariant. -/
theorem winv_set_active (w : World) (l : List (Nat × State))
    (hids : l.map Prod.fst = w.active.map Prod.fst) (hw : WInv w) :
    WInv { w with active := l } := by
  refine ⟨hw.cache, hw.term_le, ?_, ?_, hw.events_lt, ?_, ?_⟩
  · intro r hr
    show r ∉ l.map Prod.fst
    rw [hids]
    exact hw.term_dead r hr
  · intro p hp rr hrr
    show rr ∈ l.map Prod.fst
    rw [hids]
    exact hw.live_active p hp rr hrr
  · intro rr hrr
    rw [show activeIds { w with active := l } = l.map Prod.fst from rfl, hids] at hrr
    exact hw.active_lt rr hrr
  · show (l.map Prod.fst).Nodup
    rw [hids]
    exact hw.nodup

/-- Rewriting handle payloads (cache-safely, without creating live
references) keeps the invariant. -/
theorem winv_handle_update (w : World) (hid : Nat) (f : Handle → Handle)
    (hfc : ∀ h, cacheOK h → cacheOK (f h))
    (hfl : ∀ h rr, (f h).live = some rr → h.live = some rr)
    (hw : WInv w) : WInv { w with handles := updatek w.handles hid f } := by
  refine ⟨?_, hw.term_le, hw.term_dead, ?_, hw.events_lt, hw.active_lt, hw.nodup⟩
  · exact updatek_pres cacheOK w.handles hid f hfc hw.cache
  · intro p hp rr hrr
    rcases mem_updatek w.handles hid f p hp with ⟨q, hq, _, hv⟩
    rcases hv with hv | hv
    · exact hw.live_active q hq rr (by rw [← hv]; exact hrr)
    · exact hw.live_active q hq rr (hfl q.2 rr (by rw [← hv]; exact hrr))

theorem winv_newHandle (o : Nat) (w : World) (hw : WInv w) : WInv (newHandle o w) := by
  refine ⟨?_, hw.term_le, hw.term_dead, ?_, ?_, ?_, hw.nodup⟩
  · intro p hp
    rcases List.mem_append.mp hp with hp | hp
    · exact hw.cache p hp
    · rcases List.mem_singleton.mp hp with rfl
      exact ⟨le_refl 0, by norm_num⟩
  · intro p hp rr hrr
    rcases List.mem_append.mp hp with hp | hp
    · exact hw.live_active p hp rr hrr
    · rcases List.mem_singleton.mp hp with rfl
      cases hrr
  · intro p hp
    exact Nat.lt_succ_of_lt (hw.events_lt p hp)
  · intro rr hrr
    exact Nat.lt_succ_of_lt (hw.active_lt rr hrr)

theorem winv_stage (hid : Nat) (sp : Spec) (w : World) (hw : WInv w) :
    WInv (stage hid sp w) :=
  winv_handle_update w hid _ (fun h hh => hh) (fun h rr hrr => hrr) hw

theorem winv_pause (hid : Nat) (now : Int) (w : World) (hw : WInv w) :
    WInv (pauseOp hid now w) := by
  unfold pauseOp
  cases hh : lookup w.handles hid with
  | none => exact hw
  | some h =>
      simp only
      cases hl : h.live with
      | none => exact hw
      | some r =>
          simp only
          cases hsl : lookup w.active r with
          | none => exact hw
          | some s =>
              simp only
              by_cases hp : s.paused
              · simpa [hp] using hw
              · rw [if_neg (by simpa using hp)]
                exact winv_set_active w _ (updatek_ids w.active r _) hw

theorem winv_resume (hid : Nat) (now : Int) (w : World) (hw : WInv w) :
    WInv (resumeOp hid now w) := by
  unfold resumeOp
  cases hh : lookup w.handles hid with
  | none => exact hw
  | some h =>
      simp only
      cases hl : h.live with
      | none => exact hw
      | some r =>
          simp only
          cases hsl : lookup w.active r with
          | none => exact hw
          | some s =>
              simp only
              by_cases hp : s.paused
              · rw [if_pos hp]
                exact winv_set_active w _ (updatek_ids w.active r _) hw
              · simpa [hp] using hw

theorem winv_ownerDies (o : Nat) (w : World) (hw : WInv w) : WInv (ownerDies o w) :=
  winv_set_active w _
    (ids_map_keyed w.active (fun p => p.2.owner = some o)
      (fun p => { p.2 with owner := none })) hw

theorem killFold_pres (c : Nat) (P : Handle → Prop)
    (hP : ∀ h, P h → P (handleCancelCache 0 h)) (l : List (Nat × State)) :
    ∀ hs, (∀ p ∈ hs, P p.2) → ∀ p ∈ l.foldl (killStep c) hs, P p.2 := by
  induction l with
  | nil => intro hs h; exact h
  | cons q t ih =>
      intro hs h
      rw [List.foldl_cons]
      apply ih
      unfold killStep
      by_cases hc : q.2.owner = none ∨ q.2.owner = some c
      · rw [if_pos hc]
        cases ha : q.2.anim with
        | none => exact h
        | some hid => exact updatek_pres P hs hid _ hP h
      · rw [if_neg hc]
        exact h

theorem winv_killFor (c : Nat) (w : World) (hw : WInv w) : WInv (killFor c w) := by
  have hids : (w.active.map fun p =>
      if p.2.owner = none ∨ p.2.owner = some c then
        (p.1, { p.2 with anim := none, dying := true }) else p).map Prod.fst =
      w.active.map Prod.fst :=
    ids_map_keyed w.active (fun p => p.2.owner = none ∨ p.2.owner = some c)
      (fun p => { p.2 with anim := none, dying := true })
  have hact : activeIds (killFor c w) = activeIds w := hids
  refine ⟨?_, hw.term_le, ?_, ?_, hw.events_lt, ?_, ?_⟩
  · exact killFold_pres c cacheOK (cacheOK_cancel 0) w.active.reverse w.handles hw.cache
  · intro r hr
    rw [hact]
    exact hw.term_dead r hr
  · intro p hp rr hrr
    rw [hact]
    refine killFold_pres c (fun h => ∀ rr2, h.live = some rr2 → rr2 ∈ activeIds w)
      ?_ w.active.reverse w.handles ?_ p hp rr hrr
    · intro h hh rr2 hrr2
      cases hrr2
    · intro q hq rr2 hrr2
      exact hw.live_active q hq rr2 hrr2
  · intro rr hrr
    rw [hact] at hrr
    exact hw.active_lt rr hrr
  · show (activeIds (killFor c w)).Nodup
    rw [hact]
    exact hw.nodup

theorem eventsFor_ne_nil_mem (r : Nat) (evs : List (Nat × Ev))
    (h : eventsFor r evs ≠ []) : r ∈ evs.map Prod.fst := by
  induction evs with
  | nil => exact absurd rfl h
  | cons p t ih =>
      rcases p with ⟨i, e⟩
      rw [eventsFor_cons] at h
      by_cases hi : i = r
      · exact List.mem_cons.mpr (Or.inl hi.symm)
      · simp only [hi, if_false, List.nil_append] at h
        exact List.mem_cons.mpr (Or.inr (ih h))

/-- The world produced by the committed branch of `Play` keeps the
invariant (for any state record registered under the fresh id). -/
theorem winv_play_world (w : World) (hid : Nat) (st : State) (sp : Spec) (hw : WInv w) :
    WInv { handles := updatek w.handles hid (fun h0 =>
             { h0 with staging := none, last_spec := some sp, live := some w.next,
                       progress_cache := 0 }),
           active := w.active ++ [(w.next, st)],
           events := w.events ++ (if sp.on_start then [(w.next, Ev.start)] else []),
           next := w.next + 1 } := by
  have hevs : ∀ r, termEvs (eventsFor r
      (w.events ++ (if sp.on_start then [(w.next, Ev.start)] else []))) =
      termEvs (eventsFor r w.events) := by
    intro r
    by_cases ho : sp.on_start
    · rw [if_pos ho]
      exact termEvs_eventsFor_start r w.next w.events
    · rw [if_neg ho, List.append_nil]
  refine ⟨?_, ?_, ?_, ?_, ?_, ?_, ?_⟩
  · exact updatek_pres cacheOK w.handles hid
      (fun h0 => { h0 with staging := none, last_spec := some sp, live := some w.next, progress_cache := 0 })
      (fun h hh => ⟨le_refl 0, by norm_num⟩) hw.cache
  · intro r
    show termEvs (eventsFor r _) ≤ 1
    rw [hevs r]
    exact hw.term_le r
  · intro r hr
    rw [show termEvs (eventsFor r _) = termEvs (eventsFor r w.events) from hevs r] at hr
    have hne : r ≠ w.next := by
      intro hc
      have hnn : eventsFor r w.events ≠ [] := by
        intro hnil
        rw [hnil] at hr
        simp [termEvs] at hr
      rcases exists_of_mem_ids w.events r (eventsFor_ne_nil_mem r w.events hnn) with ⟨e, he⟩
      have hlt := hw.events_lt (r, e) he
      rw [hc] at hlt
      exact lt_irrefl _ hlt
    intro hmem
    simp only [activeIds, List.map_append, List.map_cons, List.map_nil] at hmem
    rcases List.mem_append.mp hmem with hmem | hmem
    · exact hw.term_dead r hr hmem
    · exact hne (List.mem_singleton.mp hmem)
  · intro p hp rr hrr
    show rr ∈ activeIds _
    simp only [activeIds, List.map_append, List.map_cons, List.map_nil]
    rcases mem_updatek w.handles hid
      (fun h0 => { h0 with staging := none, last_spec := some sp, live := some w.next, progress_cache := 0 }) p hp with ⟨q, hq, _, hv⟩
    rcases hv with hv | hv
    · exact List.mem_append.mpr (Or.inl
        (hw.live_active q hq rr (by rw [← hv]; exact hrr)))
    · rw [hv] at hrr
      have h5 : some w.next = some rr := hrr
      exact List.mem_append.mpr (Or.inr (by
        rw [← Option.some.inj h5]
        exact List.mem_singleton.mpr rfl))
  · intro p hp
    show p.1 < w.next + 1
    rcases List.mem_append.mp hp with hp | hp
    · exact Nat.lt_succ_of_lt (hw.events_lt p hp)
    · by_cases ho : sp.on_start
      · rw [if_pos ho] at hp
        rcases List.mem_singleton.mp hp with rfl
        exact Nat.lt_succ_self _
      · rw [if_neg ho] at hp
        cases hp
  · intro rr hrr
    simp only [activeIds, List.map_append, List.map_cons, List.map_nil] at hrr
    rcases List.mem_append.mp hrr with hrr | hrr
    · exact Nat.lt_succ_of_lt (hw.active_lt rr hrr)
    · rcases List.mem_singleton.mp hrr with rfl
      exact Nat.lt_succ_self _
  · show ((w.active ++ [(w.next, st)]).map Prod.fst).Nodup
    rw [List.map_append, List.map_cons, List.map_nil]
    refine List.Nodup.append hw.nodup (List.nodup_singleton _) ?_
    intro a ha hb
    rcases List.mem_singleton.mp hb with rfl
    exact lt_irrefl _ (hw.active_lt _ ha)

theorem winv_play (hid : Nat) (now : Int) (w : World) (hw : WInv w) :
    WInv (play hid now w) := by
  unfold play
  cases hh : lookup w.handles hid with
  | none => exact hw
  | some h =>
      simp only
      cases hst : h.staging with
      | some sp =>
          simp only
          exact winv_play_world w hid _ sp hw
      | none =>
          simp only
          cases hls : h.last_spec with
          | none => exact hw
          | some sp =>
              simp only
              exact winv_play_world w hid _ sp hw

/-- The common terminal-detach shape shared by `Stop` and `_Unschedule`:
detach the handle with a cache-clamping rewrite, log at most one terminal
event for the run, and remove the state. -/
theorem winv_term_detach (w : World) (hid r : Nat) (f : Handle → Handle)
    (evs : List (Nat × Ev)) (hw : WInv w)
    (hr : r ∈ activeIds w)
    (hfc : ∀ h, cacheOK h → cacheOK (f h))
    (hfl : ∀ h, (f h).live = none)
    (hevs_ids : ∀ p ∈ evs, p.1 = r)
    (hevs_cnt : termEvs (eventsFor r evs) ≤ 1) :
    WInv (removeState r { w with handles := updatek w.handles hid f,
                                 events := w.events ++ evs }) := by
  have hr0 : termEvs (eventsFor r w.events) = 0 := by
    by_contra hc
    exact absurd hr (hw.term_dead r (Nat.one_le_iff_ne_zero.mpr hc))
  have hnil : termEvs ([] : List Ev) = 0 := rfl
  refine ⟨?_, ?_, ?_, ?_, ?_, ?_, ?_⟩
  · intro p hp
    rcases ptrNull_mem _ _ p hp with ⟨q, hq, _, hv, _⟩
    have hq2 : cacheOK q.2 := updatek_pres cacheOK w.handles hid f hfc hw.cache q hq
    rcases hv with hv | hv
    · rw [hv]; exact hq2
    · rw [hv]; exact hq2
  · intro r2
    show termEvs (eventsFor r2 (w.events ++ evs)) ≤ 1
    rw [eventsFor_append, termEvs_append]
    by_cases h2 : r2 = r
    · subst h2
      rw [hr0]
      simpa using hevs_cnt
    · rw [eventsFor_nil_of_other r r2 evs hevs_ids h2, hnil]
      have := hw.term_le r2
      omega
  · intro r2 h2 hmem
    have hmem2 : r2 ∈ (w.active.filter (fun p => decide (p.1 ≠ r))).map Prod.fst := hmem
    rcases (mem_ids_filter w.active _ r2).mp hmem2 with ⟨p, hp, hpred, hpr⟩
    have hner : ¬ (r2 = r) := by
      intro hc
      have hpred2 : p.1 ≠ r := by simpa using hpred
      exact hpred2 (hpr.trans hc)
    have h2b : 1 ≤ termEvs (eventsFor r2 (w.events ++ evs)) := h2
    rw [eventsFor_append, termEvs_append,
      eventsFor_nil_of_other r r2 evs hevs_ids hner, hnil] at h2b
    have h3 : 1 ≤ termEvs (eventsFor r2 w.events) := by omega
    exact hw.term_dead r2 h3 (List.mem_map.mpr ⟨p, hp, hpr⟩)
  · intro p hp rr hrr
    rcases ptrNull_mem _ _ p hp with ⟨q, hq, _, _, hlv⟩
    rcases hlv rr hrr with ⟨hqlive, hrr_ne⟩
    have hrner : rr ≠ r := by simpa using hrr_ne
    rcases mem_updatek w.handles hid f q hq with ⟨q0, hq0, _, hv⟩
    have hq0live : q0.2.live = some rr := by
      rcases hv with hv | hv
      · rw [← hv]; exact hqlive
      · exfalso
        rw [hv, hfl q0.2] at hqlive
        cases hqlive
    have hrr_act : rr ∈ activeIds w := hw.live_active q0 hq0 rr hq0live
    rcases exists_of_mem_ids w.active rr hrr_act with ⟨s0, hs0⟩
    show rr ∈ _
    refine (mem_ids_filter w.active (fun p => decide (p.1 ≠ r)) rr).mpr
      ⟨(rr, s0), hs0, ?_, rfl⟩
    simpa using hrner
  · intro p hp
    show p.1 < w.next
    rcases List.mem_append.mp hp with hp | hp
    · exact hw.events_lt p hp
    · rw [hevs_ids p hp]
      exact hw.active_lt r hr
  · intro rr hrr
    rcases (mem_ids_filter w.active (fun p => decide (p.1 ≠ r)) rr).mp hrr
      with ⟨p, hp, _, hpr⟩
    exact hw.active_lt rr (List.mem_map.mpr ⟨p, hp, hpr⟩)
  · exact nodup_ids_filter w.active _ hw.nodup

theorem winv_unschedule (fire : Bool) (hid : Nat) (now : Int) (w : World) (hw : WInv w) :
    WInv (unschedule fire hid now w) := by
  unfold unschedule
  cases hh : lookup w.handles hid with
  | none => exact hw
  | some h =>
      simp only
      cases hl : h.live with
      | none => exact hw
      | some r =>
          simp only
          cases hsl : lookup w.active r with
          | none => exact hw
          | some s =>
              simp only
              refine winv_term_detach w hid r (handleCancelCache (progressLive now s))
                (if fire && s.spec.on_cancel then [(r, Ev.cancel)] else []) hw
                ?_ ?_ ?_ ?_ ?_
              · exact List.mem_map.mpr ⟨(r, s), lookup_mem w.active r s hsl, rfl⟩
              · exact fun h0 hc => cacheOK_cancel _ h0 hc
              · exact fun h0 => rfl
              · intro p hp
                by_cases hc : (fire && s.spec.on_cancel) = true
                · rw [if_pos hc] at hp
                  rcases List.mem_singleton.mp hp with rfl
                  rfl
                · rw [if_neg hc] at hp
                  cases hp
              · by_cases hc : (fire && s.spec.on_cancel) = true
                · rw [if_pos hc, eventsFor_singleton, if_pos rfl]
                  simp [termEvs, termEv]
                · rw [if_neg hc]
                  simp [eventsFor, termEvs]

theorem winv_stop (hid : Nat) (w : World) (hw : WInv w) : WInv (stopOp hid w) := by
  unfold stopOp
  cases hh : lookup w.handles hid with
  | none => exact hw
  | some h =>
      simp only
      cases hl : h.live with
      | none => exact hw
      | some r =>
          simp only
          cases hsl : lookup w.active r with
          | none => exact hw
          | some s =>
              simp only
              refine winv_term_detach w hid r handleFinishCache
                ((if s.spec.tick.isSome then
                    [(r, Ev.tick (if s.reverse then 0 else 1))] else []) ++
                 (if s.spec.on_finish then [(r, Ev.finish)] else [])) hw
                ?_ ?_ ?_ ?_ ?_
              · exact List.mem_map.mpr ⟨(r, s), lookup_mem w.active r s hsl, rfl⟩
              · exact fun h0 hc => cacheOK_finish h0 hc
              · exact fun h0 => rfl
              · intro p hp
                rcases List.mem_append.mp hp with hp | hp
                · by_cases hc : s.spec.tick.isSome = true
                  · rw [if_pos hc] at hp
                    rcases List.mem_singleton.mp hp with rfl
                    rfl
                  · rw [if_neg hc] at hp
                    cases hp
                · by_cases hc : s.spec.on_finish = true
                  · rw [if_pos hc] at hp
                    rcases List.mem_singleton.mp hp with rfl
                    rfl
                  · rw [if_neg hc] at hp
                    cases hp
              · rw [eventsFor_append, termEvs_append]
                have h1 : termEvs (eventsFor r (if s.spec.tick.isSome then
                    [(r, Ev.tick (if s.reverse then 0 else 1))] else [])) = 0 := by
                  by_cases hc : s.spec.tick.isSome = true
                  · rw [if_pos hc, eventsFor_singleton, if_pos rfl]
                    simp [termEvs, termEv]
                  · rw [if_neg hc]
                    simp [eventsFor, termEvs]
                have h2 : termEvs (eventsFor r (if s.spec.on_finish then
                    [(r, Ev.finish)] else [])) ≤ 1 := by
                  by_cases hc : s.spec.on_finish = true
                  · rw [if_pos hc, eventsFor_singleton, if_pos rfl]
                    simp [termEvs, termEv]
                  · rw [if_neg hc]
                    simp [eventsFor, termEvs]
                omega

theorem winv_cancel (hid : Nat) (now : Int) (w : World) (hw : WInv w) :
    WInv (cancelOp hid now w) :=
  winv_unschedule true hid now w hw

theorem winv_reset (hid : Nat) (now : Int) (w : World) (hw : WInv w) :
    WInv (resetOp hid now w) :=
  winv_handle_update _ hid _ (fun h hh => ⟨le_refl 0, by norm_num⟩)
    (fun h rr hrr => hrr) (winv_unschedule false hid now w hw)

theorem winv_replay (hid : Nat) (now : Int) (w : World) (hw : WInv w) :
    WInv (replayOp hid now w) := by
  unfold replayOp
  cases hh : lookup w.handles hid with
  | none => exact hw
  | some h =>
      simp only
      by_cases hst : h.staging.isSome
      · rw [if_pos hst]
        exact winv_play hid now _ (winv_unschedule false hid now w hw)
      · rw [if_neg hst]
        cases hls : h.last_spec with
        | none => exact hw
        | some sp =>
            simp only
            exact winv_play hid now _
              (winv_handle_update _ hid _ (fun h0 hc => hc) (fun h0 rr hrr => hrr)
                (winv_unschedule false hid now w hw))

theorem finalizeFold_pres (P : Handle → Prop) (act : List (Nat × State)) (now : Int)
    (hP : ∀ (q : ℚ) h, P h → P (handleCancelCache q h)) (l : List (Nat × State)) :
    ∀ hs, (∀ p ∈ hs, P p.2) →
      ∀ p ∈ l.foldl (fun hs p =>
          match p.2.anim with
          | some hid => updatek hs hid (fun h => handleCancelCache (handleProgress act now h) h)
          | none => hs) hs, P p.2 := by
  induction l with
  | nil => intro hs h; exact h
  | cons q t ih =>
      intro hs h
      rw [List.foldl_cons]
      refine ih _ ?_
      intro p hp
      cases ha : q.2.anim with
      | none =>
          simp only [ha] at hp
          exact h p hp
      | some hid =>
          simp only [ha] at hp
          exact updatek_pres P hs hid _ (fun a pa => hP _ a pa) h p hp

theorem winv_finalize (now : Int) (w : World) (hw : WInv w) : WInv (finalizeOp now w) := by
  have hact0 : activeIds (finalizeOp now w) = [] := rfl
  refine ⟨?_, hw.term_le, ?_, ?_, hw.events_lt, ?_, ?_⟩
  · intro p hp
    rcases ptrNull_mem _ _ p hp with ⟨q, hq, _, hv, _⟩
    have hq2 : cacheOK q.2 :=
      finalizeFold_pres cacheOK w.active now (fun q0 h0 hc => cacheOK_cancel q0 h0 hc)
        w.active w.handles hw.cache q hq
    rcases hv with hv | hv
    · rw [hv]; exact hq2
    · rw [hv]; exact hq2
  · intro r hr hmem
    rw [hact0] at hmem
    cases hmem
  · intro p hp rr hrr
    exfalso
    rcases ptrNull_mem _ _ p hp with ⟨q, hq, _, _, hlv⟩
    rcases hlv rr hrr with ⟨hqlive, hnotin⟩
    have hactm : rr ∈ activeIds w :=
      finalizeFold_pres (fun h => ∀ rr2, h.live = some rr2 → rr2 ∈ activeIds w)
        w.active now (fun q0 h0 hc rr2 hrr2 => Option.noConfusion hrr2)
        w.active w.handles (fun q0 hq0 rr2 hrr2 => hw.live_active q0 hq0 rr2 hrr2)
        q hq rr hqlive
    exact hnotin hactm
  · intro rr hrr
    rw [hact0] at hrr
    cases hrr
  · rw [hact0]
    exact List.nodup_nil

/-- `Scheduler::RunFrame` preserves the invariant: the per-frame iteration
fires at most one terminal callback per stepped state, exactly the stopped
states are swept, and the sweep nulls every weak reference into them. -/
theorem winv_runFrame (now : Int) (w : World) (hw : WInv w) : WInv (runFrame now w) := by
  have hA : (runFrame now w).active =
      (frameLoop now w.active w.handles).states.filter
        (fun p => !(frameLoop now w.active w.handles).removed.contains p.1) := rfl
  have hE : (runFrame now w).events =
      w.events ++ (frameLoop now w.active w.handles).events := rfl
  have hnil : termEvs ([] : List Ev) = 0 := rfl
  have hzero : ∀ r2, r2 ∈ w.active.map Prod.fst → termEvs (eventsFor r2 w.events) = 0 := by
    intro r2 hm
    by_contra hc
    exact absurd hm (hw.term_dead r2 (Nat.one_le_iff_ne_zero.mpr hc))
  refine ⟨?_, ?_, ?_, ?_, ?_, ?_, ?_⟩
  · intro p hp
    rcases ptrNull_mem _ _ p hp with ⟨q, hq, _, hv, _⟩
    have hq2 : cacheOK q.2 :=
      frameLoop_handles_pres cacheOK now (cacheOK_cancel 0) cacheOK_finish
        w.active w.handles hw.cache q hq
    rcases hv with hv | hv
    · rw [hv]; exact hq2
    · rw [hv]; exact hq2
  · intro r2
    show termEvs (eventsFor r2 (runFrame now w).events) ≤ 1
    rw [hE, eventsFor_append, termEvs_append]
    by_cases hm : r2 ∈ w.active.map Prod.fst
    · rcases exists_of_mem_ids w.active r2 hm with ⟨s, hs⟩
      rw [frame_eventsFor now r2 s w.active w.handles hw.nodup hs, hzero r2 hm]
      simpa using (stepRes_termEvs now s).1
    · rw [frame_eventsFor_not_mem now r2 w.active w.handles hm, hnil]
      have := hw.term_le r2
      omega
  · intro r2 h2 hmem
    have hmem2 : r2 ∈ ((frameLoop now w.active w.handles).states.filter
        (fun p => !(frameLoop now w.active w.handles).removed.contains p.1)).map
          Prod.fst := hmem
    rcases (mem_ids_filter _ _ r2).mp hmem2 with ⟨p, hpFL, hpred, hpr⟩
    have hm : r2 ∈ w.active.map Prod.fst := by
      rw [← frameLoop_states_ids now w.active w.handles]
      exact List.mem_map.mpr ⟨p, hpFL, hpr⟩
    rcases exists_of_mem_ids w.active r2 hm with ⟨s, hs⟩
    have h2b : 1 ≤ termEvs (eventsFor r2 (w.events ++
        (frameLoop now w.active w.handles).events)) := h2
    rw [eventsFor_append, termEvs_append, hzero r2 hm,
      frame_eventsFor now r2 s w.active w.handles hw.nodup hs] at h2b
    have hterm : ¬ (stepRes now s).2.1 = StepOut.cont := by
      intro hc
      rw [(stepRes_termEvs now s).2 hc] at h2b
      omega
    have hrem : r2 ∈ (frameLoop now w.active w.handles).removed :=
      (mem_frame_removed now w.active w.handles r2 s hw.nodup hs).mpr hterm
    have hpred2 : (frameLoop now w.active w.handles).removed.contains r2 = false := by
      have := hpred
      rw [hpr] at this
      simpa using this
    rw [contains_true_of_mem _ _ hrem] at hpred2
    cases hpred2
  · intro p hp rr hrr
    rcases ptrNull_mem _ _ p hp with ⟨q, hq, _, _, hlv⟩
    rcases hlv rr hrr with ⟨hqlive, hnrem⟩
    have hq_act : rr ∈ activeIds w :=
      frameLoop_handles_pres (fun h => ∀ rr2, h.live = some rr2 → rr2 ∈ activeIds w)
        now (fun h hh rr2 hrr2 => Option.noConfusion hrr2)
        (fun h hh rr2 hrr2 => Option.noConfusion hrr2)
        w.active w.handles
        (fun q0 hq0 rr2 hrr2 => hw.live_active q0 hq0 rr2 hrr2) q hq rr hqlive
    have hrrFL : rr ∈ (frameLoop now w.active w.handles).states.map Prod.fst := by
      rw [frameLoop_states_ids now w.active w.handles]
      exact hq_act
    rcases exists_of_mem_ids _ rr hrrFL with ⟨s0, hs0⟩
    show rr ∈ _
    refine (mem_ids_filter (frameLoop now w.active w.handles).states
      (fun p => !(frameLoop now w.active w.handles).removed.contains p.1) rr).mpr
      ⟨(rr, s0), hs0, ?_, rfl⟩
    simpa using hnrem
  · intro p hp
    show p.1 < w.next
    rw [hE] at hp
    rcases List.mem_append.mp hp with hp | hp
    · exact hw.events_lt p hp
    · exact hw.active_lt p.1 (frame_events_ids now w.active w.handles p hp)
  · intro rr hrr
    have hrr2 : rr ∈ ((frameLoop now w.active w.handles).states.filter
        (fun p => !(frameLoop now w.active w.handles).removed.contains p.1)).map
          Prod.fst := hrr
    rcases (mem_ids_filter _ _ rr).mp hrr2 with ⟨p, hpFL, _, hpr⟩
    have hm : rr ∈ w.active.map Prod.fst := by
      rw [← frameLoop_states_ids now w.active w.handles]
      exact List.mem_map.mpr ⟨p, hpFL, hpr⟩
    exact hw.active_lt rr hm
  · show (((frameLoop now w.active w.handles).states.filter
        (fun p => !(frameLoop now w.active w.handles).removed.contains p.1)).map
          Prod.fst).Nodup
    refine nodup_ids_filter _ _ ?_
    rw [frameLoop_states_ids now w.active w.handles]
    exact hw.nodup

/-- Every public operation preserves the invariant. -/
theorem winv_applyOp (w : World) (op : Op) (hw : WInv w) : WInv (applyOp w op) := by
  cases op with
  | newHandle o => exact winv_newHandle o w hw
  | stage hid sp => exact winv_stage hid sp w hw
  | play hid now => exact winv_play hid now w hw
  | runFrame now => exact winv_runFrame now w hw
  | stop hid => exact winv_stop hid w hw
  | cancel hid now => exact winv_cancel hid now w hw
  | reset hid now => exact winv_reset hid now w hw
  | replay hid now => exact winv_replay hid now w hw
  | pause hid now => exact winv_pause hid now w hw
  | resume hid now => exact winv_resume hid now w hw
  | killAllFor o => exact winv_killFor o w hw
  | finalize now => exact winv_finalize now w hw
  | ownerDies o => exact winv_ownerDies o w hw

/-- The invariant holds in every reachable world. -/
theorem winv_runOps (ops : List Op) : WInv (runOps ops) := by
  have h : ∀ (l : List Op) (w : World), WInv w → WInv (l.foldl applyOp w) := by
    intro l
    induction l with
    | nil => intro w hw; exact hw
    | cons op t ih =>
        intro w hw
        rw [List.foldl_cons]
        exact ih (applyOp w op) (winv_applyOp w op hw)
  exact h ops World.init winv_init

/-- C1: for any single animation run, the terminal callbacks `on_finish` and
`on_cancel` are mutually exclusive and fire at most once: over every sequence
of public operations (plays, frames, stops, cancels, resets, replays, kills,
finalize, owner destruction) from the initial world, each run id sees at most
one `on_finish`, at most one `on_cancel`, and never both. -/
theorem C1_terminal_exclusive (ops : List Op) (r : Nat) :
    finishCount r (runOps ops) ≤ 1 ∧ cancelCount r (runOps ops) ≤ 1 ∧
    ¬ (1 ≤ finishCount r (runOps ops) ∧ 1 ≤ cancelCount r (runOps ops)) := by
  have hw := winv_runOps ops
  have hle := hw.term_le r
  have hsum := counts_eq_termEvs r (runOps ops).events
  have h1 : finishCount r (runOps ops) = finishCountE r (runOps ops).events := rfl
  have h2 : cancelCount r (runOps ops) = cancelCountE r (runOps ops).events := rfl
  refine ⟨by rw [h1]; omega, by rw [h2]; omega, ?_⟩
  rw [h1, h2]
  omega

/-- C5: `Animation::Progress()` always returns a value in `[0, 1]`: in every
world reachable by public operations, whenever the handle exists the reported
progress — the clamped live formula when the weak reference resolves, the
clamped cache otherwise — lies between 0 and 1. -/
theorem C5_progress_bounds (ops : List Op) (hid : Nat) (now : Int) (q : ℚ)
    (h : progressOf (runOps ops) hid now = some q) : 0 ≤ q ∧ q ≤ 1 := by
  have hw := winv_runOps ops
  unfold progressOf at h
  cases hh : lookup (runOps ops).handles hid with
  | none => rw [hh] at h; cases h
  | some hd =>
      rw [hh] at h
      have hq : handleProgress (runOps ops).active now hd = q := Option.some.inj h
      have hcache : cacheOK hd := hw.cache (hid, hd) (lookup_mem _ hid hd hh)
      rw [← hq]
      unfold handleProgress
      cases hl : hd.live with
      | none => exact hcache
      | some r =>
          simp only
          cases hsl : lookup (runOps ops).active r with
          | none => exact hcache
          | some s =>
              simp only
              exact ⟨le_qclamp _ 0 1 (by norm_num), qclamp_le _ 0 1⟩

/-- Witness for C5: after creating a handle and playing the default spec,
halfway through the 400 ms duration the live progress is 1/2, inside the
bounds. -/
theorem C5_witness :
    progressOf (runOps [Op.newHandle 5, Op.play 0 0]) 0 200 = some (1/2) ∧
    (0 ≤ (1/2 : ℚ) ∧ (1/2 : ℚ) ≤ 1) :=
  ⟨by decide, C5_progress_bounds [Op.newHandle 5, Op.play 0 0] 0 200 (1/2) (by decide)⟩

end Anim
